import Mathlib

set_option maxRecDepth 100000

/-!
Verification of the Cortex XDR Sigma processing pipeline
(`sigma/pipelines/cortexxdr/cortexxdr.py`).

Python strings are modelled as `List Char`; the case-insensitive regex
operations of the integrity-level rewriter act on ASCII letters, so
case-insensitivity is modelled by the ASCII lowering map `lowerC`.
Fuel-based recursion is used where the Python code loops on a shrinking
string; every fuel bound is proved sufficient.
-/

/-- ASCII lower-casing, modelling the effect of Python's `re.IGNORECASE`
on the ASCII-only patterns used by the pipeline. -/
def lowerC (c : Char) : Char :=
  if 'A' ≤ c ∧ c ≤ 'Z' then Char.ofNat (c.toNat + 32) else c

/-- ASCII upper-casing, modelling Python's `str.upper` on ASCII data. -/
def upperC (c : Char) : Char :=
  if 'a' ≤ c ∧ c ≤ 'z' then Char.ofNat (c.toNat - 32) else c

/-- Python whitespace characters stripped by `str.strip`. -/
def isSpc (c : Char) : Bool :=
  c = ' ' ∨ c = '\t' ∨ c = '\n' ∨ c = '\x0d' ∨ c = '\x0b' ∨ c = '\x0c'

/-- Python `str.strip`. -/
def pyStrip (s : List Char) : List Char :=
  ((s.dropWhile isSpc).reverse.dropWhile isSpc).reverse

/-- Python `' or '.join`-style joining of string pieces. -/
def joinSep (sep : List Char) : List (List Char) → List Char
  | [] => []
  | [x] => x
  | x :: y :: xs => x ++ sep ++ joinSep sep (y :: xs)

/-- One scanning step family: `rAllF g t r fuel s` replaces every
(non-overlapping, leftmost-first) occurrence of the pattern `t` in `s` by
`r`, where a position matches when mapping the next `t.length` characters
of `s` through `g` gives `t`.  With `g = lowerC` and an already-lowercase
`t` this is Python's `re.sub` with a case-insensitive literal pattern;
with `g = id` it is Python's `str.replace`.  `fuel ≥ s.length` suffices
(proved below). -/
def rAllF (g : Char → Char) (t r : List Char) : Nat → List Char → List Char
  | 0, s => s
  | _ + 1, [] => []
  | fuel + 1, c :: s =>
    if t ≠ [] ∧ t = ((c :: s).take t.length).map g then
      r ++ rAllF g t r fuel (s.drop (t.length - 1))
    else
      c :: rAllF g t r fuel s

/-- Replace all occurrences of `t` (matched through `g`) by `r`. -/
def rAll (g : Char → Char) (t r s : List Char) : List Char :=
  rAllF g t r s.length s

/-- `field_name` from `ReplaceIntegrityLevelQueryTransformation.apply`. -/
def field_name : List Char := "action_process_integrity_level".toList

/-- `integrity_level_ranges` from the source, in Python dict insertion
order: symbolic level name ↦ replacement range expression. -/
def integrity_level_ranges : List (List Char × List Char) :=
  [ ("UNTRUSTED".toList, "action_process_integrity_level lt 4096".toList),
    ("LOW".toList,
      "(action_process_integrity_level gte 4096 and action_process_integrity_level lt 8192)".toList),
    ("MEDIUM".toList,
      "(action_process_integrity_level gte 8192 and action_process_integrity_level lt 12288)".toList),
    ("HIGH".toList,
      "(action_process_integrity_level gte 12288 and action_process_integrity_level lt 16384)".toList),
    ("SYSTEM".toList, "action_process_integrity_level gte 16384".toList) ]

/-- The five symbolic level names (the keys of `integrity_level_ranges`). -/
def levelKeys : List (List Char) := integrity_level_ranges.map Prod.fst

/-- Lower-cased level names, used for case-insensitive matching. -/
def levelKeysL : List (List Char) := levelKeys.map (List.map lowerC)

/-- The case-insensitive single-value pattern
`action_process_integrity_level = "LEVEL"` for one level, lower-cased. -/
def singlePatL (lvl : List Char) : List Char :=
  field_name ++ " = \"".toList ++ lvl.map lowerC ++ ['"']

/-- Does the lowered pattern `t` match at the start of `s`
(case-insensitively via `lowerC`)? -/
def ciAt (t s : List Char) : Bool := t == (s.take t.length).map lowerC

/-- Does the lowered pattern `t` occur anywhere in `s`? -/
def ciContainsB (t : List Char) : List Char → Bool
  | [] => ciAt t []
  | c :: s => ciAt t (c :: s) || ciContainsB t s

/-- `re.search(single_pattern, query)`: some single-value comparison
against one of the five levels occurs in the query. -/
def singleFoundB (s : List Char) : Bool :=
  levelKeys.any fun lvl => ciContainsB (singlePatL lvl) s

/-- The `for level in integrity_level_ranges.items()` loop of `re.sub`
calls, applied unconditionally. -/
def singleSubs (s : List Char) : List Char :=
  integrity_level_ranges.foldl (fun acc p => rAll lowerC (singlePatL p.1) p.2 acc) s

/-- The single-value branch of the rewriter: the `re.sub` loop guarded by
`if re.search(single_pattern, query)`. -/
def singlePass (s : List Char) : List Char :=
  if singleFoundB s then singleSubs s else s

/-- Lower-cased literal prefix of the multi-value pattern:
`action_process_integrity_level in (`. -/
def mpLit : List Char := field_name ++ " in (".toList

/-- Parse a quoted level `"LEVEL"` (case-insensitive); returns the number
of characters consumed. -/
def parseQuoted : List Char → Option Nat
  | [] => none
  | c :: s =>
    if c = '"' then
      (levelKeysL.findSome? fun lvl =>
          if lvl = (s.take lvl.length).map lowerC then some lvl.length else none).bind
        fun n => if (s.drop n).head? = some '"' then some (n + 2) else none
    else none

/-- Greedily consume `(, )*` separators; returns characters consumed. -/
def parseSeps : List Char → Nat
  | ',' :: ' ' :: s => 2 + parseSeps s
  | _ => 0

/-- Parse the `(("LEVEL")((, )*)){1,}\)` part of the multi-value pattern
(the quoted levels, separators, and closing parenthesis), returning the
number of characters consumed.  Fuel-based; `fuel ≥ s.length` suffices. -/
def parseItemsF : Nat → List Char → Option Nat
  | 0, _ => none
  | fuel + 1, s =>
    match parseQuoted s with
    | none => none
    | some n =>
      let k := parseSeps (s.drop n)
      let s2 := s.drop (n + k)
      if s2.head? = some ')' then some (n + k + 1)
      else (parseItemsF fuel s2).map fun m => n + k + m

/-- Parse the body of the multi-value pattern. -/
def parseItems (s : List Char) : Option Nat := parseItemsF s.length s

/-- Try to match the full multi-value pattern at the start of `s`;
returns the length of the matched span. -/
def tryMatchAt (s : List Char) : Option Nat :=
  if ciAt mpLit s then (parseItems (s.drop mpLit.length)).map (· + mpLit.length) else none

/-- `re.search(multi_pattern, query)`: the leftmost match of the
multi-value pattern, returned as the matched text (`group(0)`). -/
def multiSearch : List Char → Option (List Char)
  | [] => none
  | c :: s =>
    match tryMatchAt (c :: s) with
    | some n => some ((c :: s).take n)
    | none => multiSearch s

/-- The cleanup of the matched span: remove the `FIELD in (` prefix
(case-insensitively, everywhere), drop all `)` and `"` characters, and
split on `,` — exactly the Python
`re.sub(...).replace(')','').replace('"','').split(',')`. -/
def splitValues (target : List Char) : List (List Char) :=
  (((rAll lowerC mpLit [] target).filter (· ≠ ')')).filter (· ≠ '"')).splitOn ','

/-- `value.strip().upper()` membership lookup in the range table. -/
def recognizeValue (v : List Char) : Option (List Char) :=
  integrity_level_ranges.lookup ((pyStrip v).map upperC)

/-- The replacement string built for one matched span. -/
def mkRepl (target : List Char) : List Char :=
  '(' :: (joinSep " or ".toList ((splitValues target).filterMap recognizeValue) ++ [')'])

/-- Number of double-quote characters: the termination measure of the
multi-value `while` loop. -/
def countQ (s : List Char) : Nat := s.count '"'

/-- The `while re.search(multi_pattern, query)` loop, fuel-indexed.  Each
iteration replaces every occurrence of the matched text by the built
replacement (`str.replace`).  `fuel ≥ countQ s + 1` suffices (proved
below). -/
def multiLoopF : Nat → List Char → List Char
  | 0, s => s
  | fuel + 1, s =>
    match multiSearch s with
    | none => s
    | some t => multiLoopF fuel (rAll id t (mkRepl t) s)

/-- The multi-value loop with its sufficient fuel. -/
def multiLoopRun (s : List Char) : List Char := multiLoopF (countQ s + 1) s

/-- The full string rewrite of
`ReplaceIntegrityLevelQueryTransformation.apply` on a string query:
single-value branch, then the multi-value loop. -/
def applyIL (s : List Char) : List Char := multiLoopRun (singlePass s)

/-- String-typed wrapper for the rewriter on string queries. -/
def applyILs (q : String) : String := ⟨applyIL q.toList⟩

/-- Claim C5: on the single-value equality
`action_process_integrity_level = "HIGH"` the rewriter produces the HIGH
range expression `(action_process_integrity_level gte 12288 and
action_process_integrity_level lt 16384)`; the match is
case-insensitive, and the analogous range substitutions hold for
UNTRUSTED, LOW, MEDIUM and SYSTEM. -/
theorem c5_single_value_ranges :
    applyILs "action_process_integrity_level = \"HIGH\"" =
      "(action_process_integrity_level gte 12288 and action_process_integrity_level lt 16384)" ∧
    applyILs "action_process_integrity_level = \"HiGh\"" =
      "(action_process_integrity_level gte 12288 and action_process_integrity_level lt 16384)" ∧
    applyILs "action_process_integrity_level = \"UNTRUSTED\"" =
      "action_process_integrity_level lt 4096" ∧
    applyILs "action_process_integrity_level = \"LOW\"" =
      "(action_process_integrity_level gte 4096 and action_process_integrity_level lt 8192)" ∧
    applyILs "action_process_integrity_level = \"MEDIUM\"" =
      "(action_process_integrity_level gte 8192 and action_process_integrity_level lt 12288)" ∧
    applyILs "action_process_integrity_level = \"SYSTEM\"" =
      "action_process_integrity_level gte 16384" ∧
    applyILs "action_process_integrity_level = \"system\"" =
      "action_process_integrity_level gte 16384" := by
  refine ⟨?_, ?_, ?_, ?_, ?_, ?_, ?_⟩ <;> decide

/-- Claim C6: on `action_process_integrity_level in ("LOW", "HIGH")` the
rewriter produces a single parenthesized OR of the LOW and HIGH range
expressions, and the result contains no residual multi-value
`in (...)` clause over the symbolic literals. -/
theorem c6_multi_value_disjunction :
    applyILs "action_process_integrity_level in (\"LOW\", \"HIGH\")" =
      "((action_process_integrity_level gte 4096 and action_process_integrity_level lt 8192) or (action_process_integrity_level gte 12288 and action_process_integrity_level lt 16384))" ∧
    multiSearch (applyILs "action_process_integrity_level in (\"LOW\", \"HIGH\")").toList = none := by
  exact ⟨by decide, by decide⟩

/-- Claim C4, counterexample: on the membership clause
`action_process_integrity_level in ("LOW", "FOO")`, whose quoted value
list is partly but not entirely drawn from the five symbolic literals,
the rewriter does NOT replace the clause with the disjunction of the
recognized values (it leaves the query unchanged). -/
theorem c4_counterexample_partial_list_unchanged :
    applyILs "action_process_integrity_level in (\"LOW\", \"FOO\")" =
      "action_process_integrity_level in (\"LOW\", \"FOO\")" ∧
    applyILs "action_process_integrity_level in (\"LOW\", \"FOO\")" ≠
      "((action_process_integrity_level gte 4096 and action_process_integrity_level lt 8192))" := by
  exact ⟨by decide, by decide⟩

/-- A field-map entry's target: a single renamed field or a list of
target fields (which the external `FieldMappingTransformation` expands
into an OR over all targets). -/
inductive FieldTargets where
  | one (t : String)
  | many (ts : List String)
deriving DecidableEq

/-- One activity-type entry of `translation_dict`: index descriptor,
member log-source categories, and the field-name map. -/
structure ActivityDef where
  indexName : String
  indexType : String
  categories : List String
  fields : List (String × FieldTargets)
deriving DecidableEq

/-- The `process` entry of `translation_dict`. -/
def processDef : ActivityDef :=
      { indexName := "xdr_process", indexType := "preset",
        categories := ["process_creation"],
        fields :=
          [ ("ProcessId", .one "action_process_os_pid"),
            ("Image", .one "action_process_image_path"),
            ("Product", .one "action_process_signature_product"),
            ("Company", .one "action_process_signature_vendor"),
            ("CommandLine", .one "action_process_image_command_line"),
            ("CurrentDirectory", .one "action_process_cwd"),
            ("User", .one "action_process_username"),
            ("IntegrityLevel", .one "action_process_integrity_level"),
            ("md5", .one "action_process_image_md5"),
            ("sha256", .one "action_process_image_sha256"),
            ("ParentProcessId", .one "actor_process_os_pid"),
            ("ParentImage", .one "actor_process_image_path"),
            ("ParentCommandLine", .one "actor_process_image_command_line") ] }

/-- The `file` entry of `translation_dict`. -/
def fileDef : ActivityDef :=
      { indexName := "xdr_file", indexType := "preset",
        categories := ["file_change", "file_rename", "file_delete", "file_event"],
        fields :=
          [ ("Image", .one "actor_process_image_path"),
            ("CommandLine", .one "actor_process_image_command_line"),
            ("ParentImage", .one "causality_actor_process_image_path"),
            ("ParentCommandLine", .one "causality_actor_process_command_line"),
            ("TargetFilename", .one "action_file_name"),
            ("SourceFilename", .one "action_file_previous_file_name") ] }

/-- The `image_load` entry of `translation_dict`. -/
def imageLoadDef : ActivityDef :=
      { indexName := "xdr_data", indexType := "dataset",
        categories := ["image_load"],
        fields :=
          [ ("Image", .one "actor_process_image_path"),
            ("CommandLine", .one "actor_process_image_command_line"),
            ("ParentImage", .one "causality_actor_process_image_path"),
            ("ParentCommandLine", .one "causality_actor_process_command_line"),
            ("ImageLoaded", .one "action_module_path"),
            ("md5", .one "action_module_md5"),
            ("sha256", .one "action_module_sha256") ] }

/-- The `registry` entry of `translation_dict`. -/
def registryDef : ActivityDef :=
      { indexName := "xdr_registry", indexType := "preset",
        categories := ["registry_add", "registry_delete", "registry_event", "registry_set"],
        fields :=
          [ ("Image", .one "actor_process_image_path"),
            ("CommandLine", .one "actor_process_image_command_line"),
            ("ParentImage", .one "causality_actor_process_image_path"),
            ("ParentCommandLine", .one "causality_actor_process_command_line"),
            ("TargetObject", .one "action_registry_key_name"),
            ("Details", .many ["action_registry_value_name", "action_registry_data"]) ] }

/-- The `network` entry of `translation_dict`. -/
def networkDef : ActivityDef :=
      { indexName := "network_story", indexType := "preset",
        categories := ["network_connection", "firewall"],
        fields :=
          [ ("Image", .one "actor_process_image_path"),
            ("CommandLine", .one "actor_process_image_command_line"),
            ("ParentImage", .one "causality_actor_process_image_path"),
            ("ParentCommandLine", .one "causality_actor_process_command_line"),
            ("DestinationPort", .many ["action_local_port", "action_remote_port"]),
            ("DestinationIp", .many ["action_local_ip", "action_remote_ip"]),
            ("User", .one "action_username"),
            ("SourcePort", .many ["action_local_port", "action_remote_port"]),
            ("SourceIp", .many ["action_local_ip", "action_remote_ip"]),
            ("Protocol", .one "action_network_protocol"),
            ("dst_ip", .many ["action_local_ip", "action_remote_ip"]),
            ("dst_port", .many ["action_local_port", "action_remote_port"]),
            ("src_ip", .many ["action_local_ip", "action_remote_ip"]),
            ("src_port", .many ["action_local_port", "action_remote_port"]) ] }

/-- `translation_dict` from `CortexXDR_pipeline`, in source order. -/
def translation_dict : List (String × ActivityDef) :=
  [ ("process", processDef), ("file", fileDef), ("image_load", imageLoadDef),
    ("registry", registryDef), ("network", networkDef) ]

/-- Keys of `logsource_category_to_event_type`, in source order: the
log-source categories known to the pipeline. -/
def logsource_categories : List String :=
  [ "process_creation", "file_change", "file_rename", "file_delete", "file_event",
    "image_load", "registry_add", "registry_delete", "registry_event", "registry_set",
    "network_connection", "firewall" ]

/-- An (any-linked) list of `LogsourceCondition(category=...)` rule
conditions: matches when the rule's category equals one of `cats`. -/
def logsourceAnyMatch (cats : List String) (category : Option String) : Bool :=
  cats.any fun c => category = some c

/-- Whether the `cortex_logsource` processing item (the
`ChangeLogsourceTransformation`) applies to a rule: its any-linked
conditions cover all known categories. -/
def change_logsource_applied (category : Option String) : Bool :=
  logsourceAnyMatch logsource_categories category

/-- The `cortex_fail_rule_not_supported` processing item: a
`RuleFailureTransformation` guarded by the negation of
`RuleProcessingItemAppliedCondition("cortex_logsource")`; returns the
failure message when it fires. -/
def unsupported_rule_types_guard (applied : Bool) : Option String :=
  if applied then none else some "Rule type not yet supported by the Cortex XDR Sigma backend"

/-- Claim C2: the unsupported-type guard fails a rule exactly when the
`cortex_logsource` relabeling pass (which applies precisely when the
rule's category is one of the known categories) did not apply, and the
failure message is exactly
"Rule type not yet supported by the Cortex XDR Sigma backend". -/
theorem c2_unsupported_type_guard (category : Option String) :
    ((unsupported_rule_types_guard (change_logsource_applied category)).isSome ↔
      change_logsource_applied category = false) ∧
    unsupported_rule_types_guard false =
      some "Rule type not yet supported by the Cortex XDR Sigma backend" ∧
    unsupported_rule_types_guard true = none ∧
    (change_logsource_applied category = true ↔
      ∃ c, c ∈ logsource_categories ∧ category = some c) := by
  refine ⟨?_, rfl, rfl, ?_⟩
  · cases h : change_logsource_applied category <;>
      simp [unsupported_rule_types_guard]
  · simp [change_logsource_applied, logsourceAnyMatch, List.any_eq_true]

/-- `InvalidFieldTransformation`: the transformation's mutable state is
its stored `message`. -/
structure InvalidFieldTransformation where
  message : String
deriving DecidableEq

/-- `InvalidFieldTransformation.apply_detection_item`: permanently
prepends the field-name text to the instance's stored message
(`self.message = f"..." + self.message`) and raises that message.
Returns the updated instance together with the raised message. -/
def apply_detection_item (t : InvalidFieldTransformation) (fieldName : String) :
    InvalidFieldTransformation × String :=
  let m := "Invalid SigmaDetectionItem field name encountered: " ++ fieldName ++ ". " ++ t.message
  (⟨m⟩, m)

/-- `toList` distributes over string concatenation. -/
theorem strToListApp (a b : String) : (a ++ b).toList = a.toList ++ b.toList := by
  cases a; cases b; rfl

/-- Claim C10: each call to `apply_detection_item` permanently prepends
"Invalid SigmaDetectionItem field name encountered: <field>. " to the
instance's stored message before raising, so after a second call on the
same instance the raised message still contains the field name recorded
by the earlier call. -/
theorem c10_message_accumulates (m0 f1 f2 : String) :
    (apply_detection_item ⟨m0⟩ f1).1.message = (apply_detection_item ⟨m0⟩ f1).2 ∧
    (apply_detection_item ⟨m0⟩ f1).2 =
      "Invalid SigmaDetectionItem field name encountered: " ++ f1 ++ ". " ++ m0 ∧
    (apply_detection_item (apply_detection_item ⟨m0⟩ f1).1 f2).2 =
      "Invalid SigmaDetectionItem field name encountered: " ++ f2 ++ ". " ++
        ("Invalid SigmaDetectionItem field name encountered: " ++ f1 ++ ". " ++ m0) ∧
    ∃ a b : List Char,
      (apply_detection_item (apply_detection_item ⟨m0⟩ f1).1 f2).2.toList =
        a ++ f1.toList ++ b := by
  refine ⟨rfl, rfl, rfl, ?_⟩
  refine ⟨"Invalid SigmaDetectionItem field name encountered: ".toList ++ f2.toList ++
      ". ".toList ++ "Invalid SigmaDetectionItem field name encountered: ".toList,
      ". ".toList ++ m0.toList, ?_⟩
  simp [apply_detection_item, strToListApp, List.append_assoc]

/-- Lexicographic code-point comparison of character lists: Python's
string `<` used by `sorted`. -/
def lexLt : List Char → List Char → Bool
  | [], [] => false
  | [], _ :: _ => true
  | _ :: _, [] => false
  | x :: xs, y :: ys => if x < y then true else if y < x then false else lexLt xs ys

/-- Python string `<` as a proposition. -/
def strLt (a b : String) : Prop := lexLt a.toList b.toList = true

instance (a b : String) : Decidable (strLt a b) := by unfold strLt; infer_instance

/-- Sorted insertion for Python's `sorted` (ascending). -/
def insertStr (x : String) : List String → List String
  | [] => [x]
  | y :: ys => if lexLt x.toList y.toList then x :: y :: ys else y :: insertStr x ys

/-- Python `sorted` on a list of strings. -/
def sortStrs : List String → List String
  | [] => []
  | x :: xs => insertStr x (sortStrs xs)

/-- `sum([list(translation_dict[x]['fields'].keys()) for x in
translation_dict.keys()], [])`: all field keys of all activity types,
concatenated in source order. -/
def allFieldKeys : List String :=
  (translation_dict.map fun e => e.2.fields.map Prod.fst).flatten

/-- `list(set(sum(...)))`: the deduplicated field keys, used by
`ExcludeFieldCondition` (only membership matters). -/
def unsupported_field_exclude : List String := allFieldKeys.eraseDups

/-- `sorted(set(sum(...)))`: the supported field set, sorted and
deduplicated, as enumerated in the error message. -/
def supported_sorted : List String := sortStrs allFieldKeys.eraseDups

/-- The brace-wrapped enumeration `{A}, {B}, ...` of the supported
fields appearing in the error message. -/
def supported_enum : String :=
  "\x7b" ++ String.intercalate "\x7d, \x7b" supported_sorted ++ "\x7d"

/-- The message the `InvalidFieldTransformation` is constructed with in
`unsupported_field_name`. -/
def invalid_field_base : String :=
  "This pipeline only supports the following fields:\n" ++ supported_enum

/-- The full error message raised for an unsupported field `g`. -/
def invalid_field_message (g : String) : String :=
  "Invalid SigmaDetectionItem field name encountered: " ++ g ++ ". " ++ invalid_field_base

/-- The `cortex_fail_field_not_supported` processing item: applies
`InvalidFieldTransformation` (freshly constructed with
`invalid_field_base`) to the first detection item whose field name the
`ExcludeFieldCondition` lets through (i.e. a field outside the supported
set), raising its message. -/
def unsupported_field_name_pass (fields : List String) : Except String Unit :=
  match fields.find? (fun f => !(unsupported_field_exclude.elem f)) with
  | some f => .error (apply_detection_item ⟨invalid_field_base⟩ f).2
  | none => .ok ()

/-- Membership in the exclude list agrees with membership in the sorted
supported list. -/
theorem memExcludeIffSupported (x : String) :
    x ∈ unsupported_field_exclude ↔ x ∈ supported_sorted := by
  have h1 : unsupported_field_exclude.all (fun y => supported_sorted.elem y) = true := by decide
  have h2 : supported_sorted.all (fun y => unsupported_field_exclude.elem y) = true := by decide
  rw [List.all_eq_true] at h1 h2
  constructor
  · intro h; simpa [List.elem_iff] using h1 x h
  · intro h; simpa [List.elem_iff] using h2 x h

/-- Claim C1: a rule containing a detection item whose field name lies
outside the global supported field set is rejected by the field-validity
pass with an error message naming the offending field and containing the
sorted, deduplicated enumeration of the supported set; that supported
set is sorted, duplicate-free, and equals exactly the union of the
`fields` keys of the five activity-type maps of `translation_dict`. -/
theorem c1_unsupported_field_rejection (fields : List String) (f : String)
    (hmem : f ∈ fields) (hout : f ∉ supported_sorted) :
    (∃ g, g ∈ fields ∧ g ∉ supported_sorted ∧
      unsupported_field_name_pass fields = .error (invalid_field_message g) ∧
      (∃ a b : List Char, (invalid_field_message g).toList = a ++ g.toList ++ b) ∧
      (∃ a b : List Char,
        (invalid_field_message g).toList = a ++ supported_enum.toList ++ b)) ∧
    List.Pairwise strLt supported_sorted ∧
    (∀ x, x ∈ supported_sorted ↔ ∃ e ∈ translation_dict, x ∈ e.2.fields.map Prod.fst) := by
  refine ⟨?_, ?sorted, ?_⟩
  case sorted => decide
  · have hp : (fields.find? (fun f => !(unsupported_field_exclude.elem f))).isSome := by
      rw [List.find?_isSome]
      refine ⟨f, hmem, ?_⟩
      simp only [Bool.not_eq_true']
      rw [← Bool.not_eq_true]
      intro hc
      exact hout ((memExcludeIffSupported f).mp (List.elem_iff.mp hc))
    obtain ⟨g, hg⟩ := Option.isSome_iff_exists.mp hp
    have hgmem : g ∈ fields := List.mem_of_find?_eq_some hg
    have hgp := List.find?_some hg
    have hgout : g ∉ supported_sorted := by
      intro hc
      have hmem2 : g ∈ unsupported_field_exclude := (memExcludeIffSupported g).mpr hc
      have hne : ¬ g ∈ unsupported_field_exclude := by
        simpa [List.elem_iff] using hgp
      exact hne hmem2
    refine ⟨g, hgmem, hgout, ?_, ?_, ?_⟩
    · unfold unsupported_field_name_pass
      rw [hg]
      rfl
    · exact ⟨"Invalid SigmaDetectionItem field name encountered: ".toList,
        ". ".toList ++ invalid_field_base.toList,
        by simp [invalid_field_message, strToListApp, List.append_assoc]⟩
    · refine ⟨"Invalid SigmaDetectionItem field name encountered: ".toList ++ g.toList ++
        ". ".toList ++ "This pipeline only supports the following fields:\n".toList, [], ?_⟩
      simp [invalid_field_message, invalid_field_base, strToListApp, List.append_assoc]
  · intro x
    have h1 : supported_sorted.all (fun y => allFieldKeys.elem y) = true := by decide
    have h2 : allFieldKeys.all (fun y => supported_sorted.elem y) = true := by decide
    rw [List.all_eq_true] at h1 h2
    constructor
    · intro h
      have hx : x ∈ allFieldKeys := by simpa [List.elem_iff] using h1 x h
      rw [allFieldKeys, List.mem_flatten] at hx
      obtain ⟨l, hl, hxl⟩ := hx
      rw [List.mem_map] at hl
      obtain ⟨e, he, rfl⟩ := hl
      exact ⟨e, he, hxl⟩
    · rintro ⟨e, he, hx⟩
      have hxk : x ∈ allFieldKeys := by
        rw [allFieldKeys, List.mem_flatten]
        exact ⟨e.2.fields.map Prod.fst, List.mem_map_of_mem _ he, hx⟩
      simpa [List.elem_iff] using h2 x hxk

/-- Witness for C1 at a concrete rule: field "FooBar" is not supported
and the rule is rejected with the `invalid_field_message`. -/
theorem c1_unsupported_field_rejection_witness :
    (("FooBar" : String) ∈ ["Image", "FooBar"] ∧ ("FooBar" : String) ∉ supported_sorted) ∧
    ((∃ g, g ∈ ["Image", "FooBar"] ∧ g ∉ supported_sorted ∧
      unsupported_field_name_pass ["Image", "FooBar"] = .error (invalid_field_message g) ∧
      (∃ a b : List Char, (invalid_field_message g).toList = a ++ g.toList ++ b) ∧
      (∃ a b : List Char,
        (invalid_field_message g).toList = a ++ supported_enum.toList ++ b)) ∧
    List.Pairwise strLt supported_sorted ∧
    (∀ x, x ∈ supported_sorted ↔ ∃ e ∈ translation_dict, x ∈ e.2.fields.map Prod.fst)) :=
  ⟨⟨by decide, by decide⟩,
    c1_unsupported_field_rejection ["Image", "FooBar"] "FooBar" (by decide) (by decide)⟩

mutual
/-- The detection-condition tree of a rule (interface consumed from the
external rule model, spec section 6): named field/value leaves combined
by boolean connectives. -/
inductive DTree where
  | item (field : String) (value : String)
  | anyOf (children : DForest)
  | allOf (children : DForest)
deriving DecidableEq
/-- A list of sibling subtrees. -/
inductive DForest where
  | nil
  | cons (t : DTree) (f : DForest)
deriving DecidableEq
end

/-- A forest of items `(tg, v)` for the targets `tg ∈ ts`: the OR
expansion of one multi-target field. -/
def itemForest (ts : List String) (v : String) : DForest :=
  ts.foldr (fun tg acc => .cons (.item tg v) acc) .nil

mutual
/-- The external `FieldMappingTransformation` applied with a field map
`m` (spec section 6 interface: rename a singly-mapped field in place;
expand a multiply-mapped field into an OR over all targets, each
carrying the original value; leave unmapped fields alone). -/
def mapFields (m : List (String × FieldTargets)) : DTree → DTree
  | .item f v =>
    match m.lookup f with
    | some (.one tg) => .item tg v
    | some (.many ts) => .anyOf (itemForest ts v)
    | none => .item f v
  | .anyOf c => .anyOf (mapForest m c)
  | .allOf c => .allOf (mapForest m c)
/-- Forest version of `mapFields`. -/
def mapForest (m : List (String × FieldTargets)) : DForest → DForest
  | .nil => .nil
  | .cons t f => .cons (mapFields m t) (mapForest m f)
end

mutual
/-- All field names occurring in a tree. -/
def fieldsOfT : DTree → List String
  | .item f _ => [f]
  | .anyOf c => fieldsOfF c
  | .allOf c => fieldsOfF c
/-- All field names occurring in a forest. -/
def fieldsOfF : DForest → List String
  | .nil => []
  | .cons t f => fieldsOfT t ++ fieldsOfF f
end

/-- All target field names of a field map. -/
def targetsOf (m : List (String × FieldTargets)) : List String :=
  (m.map fun p =>
    match p.2 with
    | .one tg => [tg]
    | .many ts => ts).flatten

/-- The five `cortex_*_fieldmapping` processing items, applied in order:
each applies its activity type's `FieldMappingTransformation` when the
rule's category is among the activity's categories (any-linked). -/
def field_mappings_run (category : Option String) (t : DTree) : DTree :=
  translation_dict.foldl
    (fun acc e =>
      if logsourceAnyMatch e.2.categories category then mapFields e.2.fields acc else acc) t

/-- The activity-type entry whose categories contain the rule's
category, if any. -/
def activityFor (category : Option String) : Option (String × ActivityDef) :=
  translation_dict.find? fun e => logsourceAnyMatch e.2.categories category

/-- A singly-mapped lookup target is among the map's targets. -/
theorem lookupOneMem (m : List (String × FieldTargets)) (f tg : String)
    (h : m.lookup f = some (.one tg)) : tg ∈ targetsOf m := by
  induction m with
  | nil => simp [List.lookup] at h
  | cons p m ih =>
    rw [List.lookup] at h
    cases hk : (f == p.1) with
    | true =>
      simp only [hk] at h
      injection h with h
      simp [targetsOf, h]
    | false =>
      simp only [hk] at h
      have := ih h
      simp only [targetsOf, List.map_cons, List.flatten_cons, List.mem_append]
      right
      simpa [targetsOf] using this

/-- Targets of a multiply-mapped lookup are among the map's targets. -/
theorem lookupManyMem (m : List (String × FieldTargets)) (f tg : String) (ts : List String)
    (h : m.lookup f = some (.many ts)) (htg : tg ∈ ts) : tg ∈ targetsOf m := by
  induction m with
  | nil => simp [List.lookup] at h
  | cons p m ih =>
    rw [List.lookup] at h
    cases hk : (f == p.1) with
    | true =>
      simp only [hk] at h
      injection h with h
      simp [targetsOf, h, htg]
    | false =>
      simp only [hk] at h
      have := ih h
      simp only [targetsOf, List.map_cons, List.flatten_cons, List.mem_append]
      right
      simpa [targetsOf] using this

/-- The fields of an expanded item forest are exactly the targets. -/
theorem fieldsItemForest (ts : List String) (v : String) :
    fieldsOfF (itemForest ts v) = ts := by
  induction ts with
  | nil => rfl
  | cons tg ts ih => simp [itemForest, fieldsOfF, fieldsOfT, List.foldr] at ih ⊢; exact ih

mutual
/-- After mapping, every field of a tree whose fields are all in the map
is a target field. -/
theorem mappedFieldsT (m : List (String × FieldTargets)) (t : DTree)
    (h : ∀ f ∈ fieldsOfT t, (m.lookup f).isSome) :
    ∀ f ∈ fieldsOfT (mapFields m t), f ∈ targetsOf m :=
  match t with
  | .item f v => by
    intro g hg
    have hf : (m.lookup f).isSome := h f (by simp [fieldsOfT])
    rw [Option.isSome_iff_exists] at hf
    obtain ⟨tgt, htgt⟩ := hf
    cases tgt with
    | one tg =>
      rw [mapFields, htgt] at hg
      simp [fieldsOfT] at hg
      exact hg ▸ lookupOneMem m f tg htgt
    | many ts =>
      rw [mapFields, htgt] at hg
      simp only [fieldsOfT, fieldsItemForest] at hg
      exact lookupManyMem m f g ts htgt hg
  | .anyOf c => by
    intro g hg
    rw [mapFields] at hg
    simp only [fieldsOfT] at hg h
    exact mappedFieldsF m c h g hg
  | .allOf c => by
    intro g hg
    rw [mapFields] at hg
    simp only [fieldsOfT] at hg h
    exact mappedFieldsF m c h g hg

/-- Forest version of `mappedFieldsT`. -/
theorem mappedFieldsF (m : List (String × FieldTargets)) (c : DForest)
    (h : ∀ f ∈ fieldsOfF c, (m.lookup f).isSome) :
    ∀ f ∈ fieldsOfF (mapForest m c), f ∈ targetsOf m :=
  match c with
  | .nil => by intro g hg; simp [mapForest, fieldsOfF] at hg
  | .cons t f => by
    intro g hg
    rw [mapForest] at hg
    simp only [fieldsOfF, List.mem_append] at hg h
    rcases hg with hg | hg
    · exact mappedFieldsT m t (fun x hx => h x (Or.inl hx)) g hg
    · exact mappedFieldsF m f (fun x hx => h x (Or.inr hx)) g hg
end

/-- Claim C3: for a rule whose category belongs to a known activity type
and whose detection fields all lie in that type's field map, the
composite of the five field-mapping passes acts as that single map;
afterwards only target field names occur in the tree, and a field mapped
to a list of N targets becomes an N-way disjunction over exactly those
targets, each disjunct carrying the original value (e.g.
`DestinationPort` ↦ `action_local_port`/`action_remote_port`). -/
theorem c3_field_mapping (cat : String) (e : String × ActivityDef) (t : DTree)
    (hfind : activityFor (some cat) = some e)
    (hflds : ∀ f ∈ fieldsOfT t, (e.2.fields.lookup f).isSome) :
    field_mappings_run (some cat) t = mapFields e.2.fields t ∧
    (∀ f ∈ fieldsOfT (mapFields e.2.fields t), f ∈ targetsOf e.2.fields) ∧
    (∀ f v ts, e.2.fields.lookup f = some (.many ts) →
      mapFields e.2.fields (.item f v) = .anyOf (itemForest ts v) ∧
      fieldsOfT (.anyOf (itemForest ts v)) = ts) ∧
    (translation_dict.lookup "network").bind (fun a => a.fields.lookup "DestinationPort") =
      some (.many ["action_local_port", "action_remote_port"]) := by
  refine ⟨?_, mappedFieldsT e.2.fields t hflds, ?_, by decide⟩
  · have hmem := List.mem_of_find?_eq_some hfind
    have hpred := List.find?_some hfind
    simp only [translation_dict, List.mem_cons, List.not_mem_nil, or_false] at hmem
    rcases hmem with rfl | rfl | rfl | rfl | rfl <;>
      · simp only [logsourceAnyMatch, List.any_eq_true, decide_eq_true_eq,
          Option.some.injEq] at hpred
        obtain ⟨c, hc, rfl⟩ := hpred
        fin_cases hc <;> rfl
  · intro f v ts h
    refine ⟨by rw [mapFields, h], ?_⟩
    simp only [fieldsOfT, fieldsItemForest]

/-- Witness for C3 at a concrete rule: category `network_connection`,
detection item `DestinationPort = "80"`. -/
theorem c3_field_mapping_witness :
    (activityFor (some "network_connection") = some ("network", networkDef) ∧
      ∀ f ∈ fieldsOfT (.item "DestinationPort" "80"),
        (("network", networkDef).2.fields.lookup f).isSome) ∧
    (field_mappings_run (some "network_connection") (.item "DestinationPort" "80") =
        mapFields ("network", networkDef).2.fields (.item "DestinationPort" "80") ∧
      (∀ f ∈ fieldsOfT
          (mapFields ("network", networkDef).2.fields (.item "DestinationPort" "80")),
        f ∈ targetsOf ("network", networkDef).2.fields) ∧
      (∀ f v ts, ("network", networkDef).2.fields.lookup f = some (.many ts) →
        mapFields ("network", networkDef).2.fields (.item f v) = .anyOf (itemForest ts v) ∧
        fieldsOfT (.anyOf (itemForest ts v)) = ts) ∧
      (translation_dict.lookup "network").bind (fun a => a.fields.lookup "DestinationPort") =
        some (.many ["action_local_port", "action_remote_port"])) :=
  ⟨⟨by decide, by decide⟩,
    c3_field_mapping "network_connection" ("network", networkDef)
      (.item "DestinationPort" "80") (by decide) (by decide)⟩


/-- A successful quoted-level parse starts with a double quote and
consumes at least one character. -/
theorem parseQuotedShape (s : List Char) (n : Nat) (h : parseQuoted s = some n) :
    s.head? = some '"' ∧ 1 ≤ n := by
  match s with
  | [] => simp [parseQuoted] at h
  | c :: s' =>
    rw [parseQuoted] at h
    split at h
    · rename_i hc
      subst hc
      refine ⟨rfl, ?_⟩
      rcases ho : levelKeysL.findSome? fun lvl =>
          if lvl = (s'.take lvl.length).map lowerC then some lvl.length else none with _ | k
      · rw [ho] at h; simp at h
      · rw [ho] at h
        rw [Option.some_bind] at h
        split at h
        · injection h with h; omega
        · simp at h
    · simp at h

/-- A successful items parse starts with a double quote and consumes at
least one character. -/
theorem parseItemsShape (fuel : Nat) (s : List Char) (m : Nat)
    (h : parseItemsF fuel s = some m) : s.head? = some '"' ∧ 1 ≤ m := by
  match fuel with
  | 0 => simp [parseItemsF] at h
  | fuel + 1 =>
    rw [parseItemsF] at h
    rcases hq : parseQuoted s with _ | n
    · rw [hq] at h; simp at h
    · rw [hq] at h
      have hs := parseQuotedShape s n hq
      simp only at h
      split at h
      · injection h with h; exact ⟨hs.1, by omega⟩
      · rcases hr : parseItemsF fuel (s.drop (n + parseSeps (s.drop n))) with _ | m'
        · rw [hr] at h; simp at h
        · rw [hr] at h
          rw [Option.map_some'] at h
          injection h with h
          exact ⟨hs.1, by omega⟩

/-- A successful multi-pattern match at the head of `s` has length
greater than `mpLit.length` and a double quote right after the
pattern-literal prefix. -/
theorem tryMatchShape (s : List Char) (n : Nat) (h : tryMatchAt s = some n) :
    (s.drop mpLit.length).head? = some '"' ∧ mpLit.length + 1 ≤ n := by
  rw [tryMatchAt] at h
  split at h
  · rcases hp : parseItems (s.drop mpLit.length) with _ | m
    · rw [hp] at h; simp at h
    · rw [hp] at h
      rw [Option.map_some'] at h
      injection h with h
      have := parseItemsShape _ _ _ hp
      exact ⟨this.1, by omega⟩
  · simp at h

/-- The matched text returned by `multiSearch` contains a double quote
and occurs in the searched string. -/
theorem multiSearchShape (s t : List Char) (h : multiSearch s = some t) :
    '"' ∈ t ∧ ∃ a b, s = a ++ t ++ b := by
  induction s with
  | nil => simp [multiSearch] at h
  | cons c s ih =>
    rw [multiSearch] at h
    rcases hm : tryMatchAt (c :: s) with _ | n
    · rw [hm] at h
      obtain ⟨hq, a, b, hab⟩ := ih h
      exact ⟨hq, c :: a, b, by simp [hab]⟩
    · rw [hm] at h
      injection h with h
      obtain ⟨hq, hn⟩ := tryMatchShape _ _ hm
      constructor
      · rcases hh : (c :: s).drop mpLit.length with _ | ⟨d, rest⟩
        · rw [hh] at hq; simp at hq
        · rw [hh] at hq
          injection hq with hq
          subst hq
          have hdt : t.drop mpLit.length = ((c :: s).drop mpLit.length).take (n - mpLit.length) := by
            rw [← h, List.drop_take]
          rw [hh] at hdt
          have h1 : n - mpLit.length = (n - mpLit.length - 1) + 1 := by omega
          rw [h1, List.take_succ_cons] at hdt
          have : '"' ∈ t.drop mpLit.length := by rw [hdt]; simp
          exact List.mem_of_mem_drop this
      · exact ⟨[], (c :: s).drop n, by rw [← h, List.nil_append, List.take_append_drop]⟩

/-- A looked-up value belongs to the values of the association list. -/
theorem lookupMemValues {α β : Type} [BEq α] (l : List (α × β)) (k : α) (v : β)
    (h : l.lookup k = some v) : v ∈ l.map Prod.snd := by
  induction l with
  | nil => simp [List.lookup] at h
  | cons p l ih =>
    rw [List.lookup] at h
    cases hk : (k == p.1) with
    | true =>
      simp only [hk] at h
      injection h with h
      simp [← h]
    | false =>
      simp only [hk] at h
      simp [ih h]

/-- Joining quote-free pieces with a quote-free separator yields a
quote-free string. -/
theorem joinSepNoQuote (sep : List Char) (l : List (List Char))
    (hsep : '"' ∉ sep) (hl : ∀ x ∈ l, '"' ∉ x) : '"' ∉ joinSep sep l := by
  match l with
  | [] => simp [joinSep]
  | [x] => simpa [joinSep] using hl x (by simp)
  | x :: y :: xs =>
    rw [joinSep]
    simp only [List.mem_append, not_or]
    refine ⟨⟨hl x (by simp), hsep⟩, ?_⟩
    exact joinSepNoQuote sep (y :: xs) hsep fun z hz => hl z (List.mem_cons_of_mem x hz)

/-- Replacement strings built by the multi-value loop contain no double
quote. -/
theorem mkReplNoQuote (target : List Char) : countQ (mkRepl target) = 0 := by
  rw [countQ, List.count_eq_zero, mkRepl]
  intro hmem
  simp only [List.mem_cons, List.mem_append, List.mem_singleton] at hmem
  rcases hmem with h1 | hmem | h2
  · exact absurd h1 (by decide)
  · revert hmem
    apply joinSepNoQuote
    · decide
    · intro x hx
      rw [List.mem_filterMap] at hx
      obtain ⟨v, _, hv⟩ := hx
      have hval := lookupMemValues _ _ _ hv
      have hall : ∀ y ∈ integrity_level_ranges.map Prod.snd, '"' ∉ y := by decide
      exact hall x hval
  · exact absurd h2 (by decide)

/-- Quote count of a concatenation. -/
theorem countQApp (a b : List Char) : countQ (a ++ b) = countQ a + countQ b :=
  List.count_append _ _ _

/-- Dropping characters cannot increase the quote count. -/
theorem countQDropLe (n : Nat) (s : List Char) : countQ (s.drop n) ≤ countQ s := by
  conv_rhs => rw [← List.take_append_drop n s]
  rw [countQApp]
  omega

/-- Mapping through a quote-preserving character map keeps the quote
count. -/
theorem countQMap (g : Char → Char) (hg : ∀ x, g x = '"' ↔ x = '"') (l : List Char) :
    countQ (l.map g) = countQ l := by
  induction l with
  | nil => rfl
  | cons c l ih =>
    simp only [List.map_cons, countQ, List.count_cons] at ih ⊢
    have hiff : (g c == '"') = (c == '"') := by
      rcases hc : (c == '"') with _ | _
      · simp only [beq_eq_false_iff_ne] at hc ⊢
        exact fun hgc => hc ((hg c).mp hgc)
      · simp only [beq_iff_eq] at hc ⊢
        exact (hg c).mpr hc
    rw [hiff, ih]

/-- Replacing with a quote-free string cannot increase the quote count. -/
theorem rAllFCountLe (g : Char → Char) (t r : List Char) (hr : countQ r = 0) :
    ∀ fuel s, countQ (rAllF g t r fuel s) ≤ countQ s := by
  intro fuel
  induction fuel with
  | zero => intro s; rw [rAllF]
  | succ fuel ih =>
    intro s
    match s with
    | [] => rw [rAllF]
    | c :: s' =>
      rw [rAllF]
      split
      · rename_i hcond
        rw [countQApp, hr, Nat.zero_add]
        calc countQ (rAllF g t r fuel (s'.drop (t.length - 1))) ≤
              countQ (s'.drop (t.length - 1)) := ih _
          _ ≤ countQ s' := countQDropLe _ _
          _ ≤ countQ (c :: s') := by rw [countQ, countQ, List.count_cons]; omega
      · rw [countQ, countQ, List.count_cons, List.count_cons]
        have := ih s'
        rw [countQ, countQ] at this
        omega

/-- Replacing a pattern that occurs in `s` (through `g`) and contains a
double quote by a quote-free string strictly decreases the quote count,
provided the scan has enough fuel. -/
theorem rAllFCountLt (g : Char → Char) (t r : List Char)
    (hg : ∀ x, g x = '"' ↔ x = '"') (hq : '"' ∈ t) (hr : countQ r = 0) :
    ∀ fuel s a u b, s.length ≤ fuel → s = a ++ u ++ b → u.map g = t →
      countQ (rAllF g t r fuel s) < countQ s := by
  intro fuel
  induction fuel with
  | zero =>
    intro s a u b hlen hab hu
    exfalso
    have hs : s = [] := List.eq_nil_of_length_eq_zero (by omega)
    rw [hs] at hab
    have hu0 : u = [] := (List.append_eq_nil.mp (List.append_eq_nil.mp hab.symm).1).2
    rw [hu0] at hu
    rw [← hu] at hq
    simp at hq
  | succ fuel ih =>
    intro s a u b hlen hab hu
    have htne : t ≠ [] := by
      intro hte
      rw [hte] at hq
      simp at hq
    have hquote_u : '"' ∈ u := by
      have hmem : '"' ∈ u.map g := by rw [hu]; exact hq
      rw [List.mem_map] at hmem
      obtain ⟨x, hx, hgx⟩ := hmem
      rwa [(hg x).mp hgx] at hx
    have hune : u ≠ [] := by
      intro hue
      rw [hue] at hquote_u
      simp at hquote_u
    subst hab
    match a with
    | [] =>
      rcases u with _ | ⟨cu, u'⟩
      · exact absurd rfl hune
      · rw [List.nil_append, List.cons_append, rAllF]
        have hcond : t ≠ [] ∧ t = ((cu :: (u' ++ b)).take t.length).map g := by
          refine ⟨htne, ?_⟩
          have hlen2 : t.length = (cu :: u').length := by
            rw [← hu, List.length_map]
          rw [← List.cons_append, hlen2, List.take_left]
          exact hu.symm
        rw [if_pos hcond]
        have hdrop : (u' ++ b).drop (t.length - 1) = b := by
          have hlen2 : t.length = u'.length + 1 := by
            rw [← hu, List.length_map, List.length_cons]
          rw [hlen2, Nat.add_sub_cancel, List.drop_left]
        rw [hdrop, countQApp, hr, Nat.zero_add]
        have h1 : countQ (rAllF g t r fuel b) ≤ countQ b := rAllFCountLe g t r hr fuel b
        have h2 : countQ (cu :: (u' ++ b)) = countQ (cu :: u') + countQ b := by
          rw [← List.cons_append]
          exact countQApp _ _
        have h3 : 0 < countQ (cu :: u') := by
          rw [countQ, List.count_pos_iff]
          exact hquote_u
        omega
    | ca :: a' =>
      rw [List.cons_append, List.cons_append, rAllF]
      have hlen' : (a' ++ u ++ b).length ≤ fuel := by
        rw [List.cons_append, List.cons_append, List.length_cons] at hlen
        omega
      split
      · rename_i hcond
        obtain ⟨ht1, ht2⟩ := hcond
        rw [countQApp, hr, Nat.zero_add]
        obtain ⟨k, hk⟩ : ∃ k, t.length = k + 1 := by
          rcases t with _ | ⟨x, t'⟩
          · exact absurd rfl ht1
          · exact ⟨t'.length, rfl⟩
        have hdrop2 : (a' ++ u ++ b).drop (t.length - 1) =
            (ca :: (a' ++ u ++ b)).drop t.length := by
          rw [hk]
          simp
        have hrec : countQ (rAllF g t r fuel ((a' ++ u ++ b).drop (t.length - 1))) ≤
            countQ ((a' ++ u ++ b).drop (t.length - 1)) := rAllFCountLe g t r hr fuel _
        have hsplit : countQ (ca :: (a' ++ u ++ b)) =
            countQ ((ca :: (a' ++ u ++ b)).take t.length) +
            countQ ((ca :: (a' ++ u ++ b)).drop t.length) := by
          conv_lhs => rw [← List.take_append_drop t.length (ca :: (a' ++ u ++ b))]
          rw [countQApp]
        have htq : 0 < countQ ((ca :: (a' ++ u ++ b)).take t.length) := by
          have hcm : countQ (((ca :: (a' ++ u ++ b)).take t.length).map g) = countQ t := by
            rw [← ht2]
          rw [countQMap g hg] at hcm
          rw [hcm, countQ, List.count_pos_iff]
          exact hq
        rw [hdrop2] at hrec ⊢
        omega
      · rw [countQ, countQ, List.count_cons, List.count_cons]
        have := ih (a' ++ u ++ b) a' u b hlen' rfl hu
        rw [countQ, countQ] at this
        omega

/-- One iteration of the multi-value loop strictly decreases the quote
count of the query. -/
theorem multiStepCountLt (s t : List Char) (h : multiSearch s = some t) :
    countQ (rAll id t (mkRepl t) s) < countQ s := by
  obtain ⟨hq, a, b, hab⟩ := multiSearchShape s t h
  exact rAllFCountLt id t (mkRepl t) (fun x => Iff.rfl) hq (mkReplNoQuote t)
    s.length s a t b le_rfl hab (List.map_id t)

/-- If the search fails, one unit of fuel returns the query unchanged. -/
theorem multiLoopFNone (s : List Char) (hms : multiSearch s = none) (m : Nat) :
    multiLoopF (m + 1) s = s := by
  rw [multiLoopF, hms]

/-- The multi-value loop reaches a fixpoint within `countQ s + 1`
iterations, and the result does not depend on any larger fuel. -/
theorem multiLoopFix : ∀ k s, countQ s ≤ k → ∀ n, countQ s < n →
    multiSearch (multiLoopF n s) = none ∧ multiLoopF n s = multiLoopF (countQ s + 1) s := by
  intro k
  induction k with
  | zero =>
    intro s hk n hn
    rcases hms : multiSearch s with _ | t
    · obtain ⟨n', rfl⟩ : ∃ n', n = n' + 1 := ⟨n - 1, by omega⟩
      rw [multiLoopFNone s hms n', multiLoopFNone s hms (countQ s)]
      exact ⟨hms, rfl⟩
    · exfalso
      obtain ⟨hq, a, b, hab⟩ := multiSearchShape s t hms
      have : 0 < countQ s := by
        rw [countQ, List.count_pos_iff, hab]
        simp [hq]
      omega
  | succ k ih =>
    intro s hk n hn
    rcases hms : multiSearch s with _ | t
    · obtain ⟨n', rfl⟩ : ∃ n', n = n' + 1 := ⟨n - 1, by omega⟩
      rw [multiLoopFNone s hms n', multiLoopFNone s hms (countQ s)]
      exact ⟨hms, rfl⟩
    · have hlt := multiStepCountLt s t hms
      have hk' : countQ (rAll id t (mkRepl t) s) ≤ k := by omega
      obtain ⟨n', rfl⟩ : ∃ n', n = n' + 1 := ⟨n - 1, by omega⟩
      have hn' : countQ (rAll id t (mkRepl t) s) < n' := by omega
      have ihn := ih (rAll id t (mkRepl t) s) hk' n' hn'
      have ihc := ih (rAll id t (mkRepl t) s) hk' (countQ s) (by omega)
      have hlhs : multiLoopF (n' + 1) s = multiLoopF n' (rAll id t (mkRepl t) s) := by
        rw [multiLoopF, hms]
      have hrhs : multiLoopF (countQ s + 1) s = multiLoopF (countQ s) (rAll id t (mkRepl t) s) := by
        rw [multiLoopF, hms]
      rw [hlhs, hrhs]
      exact ⟨ihn.1, by rw [ihn.2, ihc.2]⟩

/-- Claim C7: for every input string the multi-value `while` loop
terminates: the double-quote count strictly decreases at each iteration,
so the loop reaches, within `countQ s + 1` iterations, a state that the
multi-value search no longer matches; any larger fuel gives the same
result. -/
theorem c7_multi_loop_terminates (s : List Char) (n : Nat) (h : countQ s < n) :
    multiLoopF n s = multiLoopRun s ∧ multiSearch (multiLoopRun s) = none := by
  have fix := multiLoopFix (countQ s) s le_rfl
  have h1 := fix n h
  have h2 := fix (countQ s + 1) (by omega)
  rw [multiLoopRun]
  exact ⟨by rw [h1.2], h2.1⟩

/-- Witness for C7 at a concrete query. -/
theorem c7_multi_loop_terminates_witness :
    countQ "x".toList < 1 ∧
      (multiLoopF 1 "x".toList = multiLoopRun "x".toList ∧
        multiSearch (multiLoopRun "x".toList) = none) :=
  ⟨by decide, c7_multi_loop_terminates "x".toList 1 (by decide)⟩

/-- ASCII letters. -/
def isAsciiLetter (c : Char) : Bool :=
  ('A' ≤ c ∧ c ≤ 'Z') ∨ ('a' ≤ c ∧ c ≤ 'z')

/-- Lower-casing an uppercase letter lands in the lowercase range. -/
theorem lowerCRangeOfUpper (c : Char) (h : 'A' ≤ c ∧ c ≤ 'Z') :
    97 ≤ (lowerC c).toNat ∧ (lowerC c).toNat ≤ 122 := by
  rw [lowerC, if_pos h]
  obtain ⟨h1, h2⟩ := h
  rw [Char.le_def] at h1 h2
  have hlo : 65 ≤ c.toNat := h1
  have hhi : c.toNat ≤ 90 := h2
  have hv : (Char.ofNat (c.toNat + 32)).toNat = c.toNat + 32 := by
    rw [Char.ofNat, dif_pos]
    · rfl
    · left
      omega
  omega

/-- `lowerC` can only produce a character outside the lowercase-letter
range if it left its argument unchanged. -/
theorem lowerCEqOfNotLower (c x : Char) (hx : x.toNat < 97 ∨ 122 < x.toNat)
    (h : lowerC c = x) : c = x := by
  by_cases hc : 'A' ≤ c ∧ c ≤ 'Z'
  · exfalso
    have := lowerCRangeOfUpper c hc
    rw [h] at this
    omega
  · rwa [lowerC, if_neg hc] at h

/-- Lower-casing an ASCII letter lands in the lowercase range. -/
theorem lowerCRangeOfLetter (c : Char) (h : isAsciiLetter c = true) :
    97 ≤ (lowerC c).toNat ∧ (lowerC c).toNat ≤ 122 := by
  rw [isAsciiLetter] at h
  simp only [decide_eq_true_eq, Bool.or_eq_true] at h
  rcases h with h | h
  · exact lowerCRangeOfUpper c h
  · obtain ⟨h1, h2⟩ := h
    rw [Char.le_def] at h1 h2
    have hlo : 97 ≤ c.toNat := h1
    have hhi : c.toNat ≤ 122 := h2
    have hnc : ¬('A' ≤ c ∧ c ≤ 'Z') := by
      intro hcon
      obtain ⟨_, hz⟩ := hcon
      rw [Char.le_def] at hz
      have : c.toNat ≤ 90 := hz
      omega
    rw [lowerC, if_neg hnc]
    omega

/-- If a lowered pattern containing character `c` occurs
case-insensitively in `s`, then some character of `s` lowers to `c`. -/
theorem ciContainsMemLower (p s : List Char) (c : Char) (hc : c ∈ p)
    (h : ciContainsB p s = true) : ∃ x ∈ s, lowerC x = c := by
  induction s with
  | nil =>
    rw [ciContainsB, ciAt] at h
    simp only [List.take_nil, List.map_nil, beq_iff_eq] at h
    rw [h] at hc
    simp at hc
  | cons d s ih =>
    rw [ciContainsB, Bool.or_eq_true] at h
    rcases h with h | h
    · rw [ciAt, beq_iff_eq] at h
      rw [h] at hc
      rw [List.mem_map] at hc
      obtain ⟨x, hx, hlx⟩ := hc
      exact ⟨x, List.mem_of_mem_take hx, hlx⟩
    · obtain ⟨x, hx, hlx⟩ := ih h
      exact ⟨x, List.mem_cons_of_mem d hx, hlx⟩

/-- If no position of `s` matches the multi-value pattern, the search
fails. -/
theorem multiSearchNoneOfAll (s : List Char) (h : ∀ i, tryMatchAt (s.drop i) = none) :
    multiSearch s = none := by
  induction s with
  | nil => rfl
  | cons c s ih =>
    rw [multiSearch]
    have h0 := h 0
    rw [List.drop_zero] at h0
    rw [h0]
    exact ih fun i => by
      have hi := h (i + 1)
      rwa [List.drop_succ_cons] at hi

/-- A string at which the multi-pattern literal matches
case-insensitively splits as 34 characters followed by `(`. -/
theorem ciAtParen (s : List Char) (h : ciAt mpLit s = true) :
    ∃ u₁ v, s = u₁ ++ '(' :: v ∧ u₁.length = 34 := by
  rw [ciAt, beq_iff_eq] at h
  have hsplit : mpLit = "action_process_integrity_level in ".toList ++ ['('] := by decide
  rw [hsplit] at h
  obtain ⟨u₁, u₂, hu, h1, h2⟩ := List.map_eq_append_iff.mp h.symm
  obtain ⟨x, rfl⟩ : ∃ x, u₂ = [x] := by
    rcases u₂ with _ | ⟨x, u₂'⟩
    · simp at h2
    · rcases u₂' with _ | _
      · exact ⟨x, rfl⟩
      · simp at h2
  have hx : lowerC x = '(' := by simpa using h2
  have hx2 : x = '(' := lowerCEqOfNotLower x '(' (by decide) hx
  subst hx2
  refine ⟨u₁, s.drop mpLit.length, ?_, ?_⟩
  · conv_lhs => rw [← List.take_append_drop mpLit.length s]
    rw [hsplit, hu]
    simp [List.append_assoc]
  · have hlen := congrArg List.length h1
    rw [List.length_map] at hlen
    rw [hlen]
    decide

/-- A quoted-level parse fails when the character after the quote cannot
begin any of the five level names. -/
theorem pqNoneOfBadHead (c₀ : Char) (x : List Char)
    (hh : lowerC c₀ ∉ ['u', 'l', 'm', 'h', 's']) :
    parseQuoted ('"' :: c₀ :: x) = none := by
  rw [parseQuoted, if_pos rfl]
  have hfs : (levelKeysL.findSome? fun lvl =>
      if lvl = ((c₀ :: x).take lvl.length).map lowerC then some lvl.length else none) = none := by
    rw [List.findSome?_eq_none_iff]
    intro lvl hlvl
    have hht : ∀ n : Nat, n ≠ 0 →
        (((c₀ :: x).take n).map lowerC).head? = some (lowerC c₀) := by
      intro n hn
      obtain ⟨m, rfl⟩ : ∃ m, n = m + 1 := ⟨n - 1, by omega⟩
      rw [List.take_succ_cons, List.map_cons, List.head?_cons]
    fin_cases hlvl <;>
      · rw [if_neg]
        intro heq
        have hhd := congrArg List.head? heq
        rw [hht _ (by decide)] at hhd
        have hmem2 : some (lowerC c₀) ∈ ['u', 'l', 'm', 'h', 's'].map some := by
          rw [← hhd]
          decide
        obtain ⟨z, hz, hzz⟩ := List.mem_map.mp hmem2
        injection hzz with hzz
        exact hh (hzz ▸ hz)
  rw [hfs]
  rfl

/-- The items parse fails on a quoted value that cannot begin any level
name, for every fuel. -/
theorem parseItemsNoneOfBadHead (c₀ : Char) (x : List Char)
    (hh : lowerC c₀ ∉ ['u', 'l', 'm', 'h', 's']) :
    ∀ fuel, parseItemsF fuel ('"' :: c₀ :: x) = none := by
  intro fuel
  match fuel with
  | 0 => rfl
  | fuel + 1 =>
    rw [parseItemsF, pqNoneOfBadHead c₀ x hh]

/-- The C4 query family: a membership clause whose second quoted value
`w` lies outside the five symbolic literals. -/
def c4Query (w : List Char) : List Char :=
  mpLit ++ ("\"LOW\", \"".toList ++ (w ++ "\")".toList))

/-- Dropping the pattern literal from a C4 query leaves its value-list
tail. -/
theorem c4QueryDrop (w : List Char) :
    (c4Query w).drop mpLit.length = "\"LOW\", \"".toList ++ (w ++ "\")".toList) :=
  List.drop_left _ _

/-- No opening parenthesis occurs in the value-list tail. -/
theorem c4ParenNotInTail (w : List Char) (hlet : ∀ c ∈ w, isAsciiLetter c = true) :
    '(' ∉ "\"LOW\", \"".toList ++ (w ++ "\")".toList) := by
  intro h
  simp only [List.mem_append] at h
  rcases h with h | h | h
  · revert h; decide
  · exact absurd (hlet '(' h) (by decide)
  · revert h; decide

/-- The items parse fails on the whole value list of a C4 query, for
every fuel. -/
theorem c4ParseTailNone (c₀ : Char) (w' : List Char)
    (hh : lowerC c₀ ∉ ['u', 'l', 'm', 'h', 's']) :
    ∀ fuel, parseItemsF fuel
      ('"' :: 'L' :: 'O' :: 'W' :: '"' :: ',' :: ' ' :: '"' :: (c₀ :: (w' ++ "\")".toList))) =
      none := by
  intro fuel
  match fuel with
  | 0 => rfl
  | fuel + 1 =>
    have hstep : parseItemsF (fuel + 1)
        ('"' :: 'L' :: 'O' :: 'W' :: '"' :: ',' :: ' ' :: '"' :: (c₀ :: (w' ++ "\")".toList))) =
        (parseItemsF fuel ('"' :: c₀ :: (w' ++ "\")".toList))).map (fun m => 5 + 2 + m) := rfl
    rw [hstep, parseItemsNoneOfBadHead c₀ _ hh]
    rfl

/-- At no position does a C4 query match the multi-value pattern. -/
theorem c4TryMatchNone (w : List Char) (c₀ : Char) (w' : List Char) (hw : w = c₀ :: w')
    (hlet : ∀ c ∈ w, isAsciiLetter c = true)
    (hh : lowerC c₀ ∉ ['u', 'l', 'm', 'h', 's']) :
    ∀ i, tryMatchAt ((c4Query w).drop i) = none := by
  intro i
  match i with
  | 0 =>
    rw [List.drop_zero, tryMatchAt]
    have hci : ciAt mpLit (c4Query w) = true := by
      rw [ciAt, c4Query, List.take_left]
      decide
    rw [if_pos hci, c4QueryDrop]
    have hnone : parseItems ("\"LOW\", \"".toList ++ (w ++ "\")".toList)) = none := by
      rw [parseItems, hw]
      exact c4ParseTailNone c₀ w' hh _
    rw [hnone]
    rfl
  | i + 1 =>
    rw [tryMatchAt]
    split
    · rename_i hci
      exfalso
      obtain ⟨u₁, v, hsv, hlen⟩ := ciAtParen _ hci
      have hq : c4Query w = (c4Query w).take (i + 1) ++ (u₁ ++ '(' :: v) := by
        rw [← hsv, List.take_append_drop]
      have hne : (c4Query w).drop (i + 1) ≠ [] := by
        rw [hsv]
        simp
      have hlt : i + 1 < (c4Query w).length := by
        by_contra hcon
        push_neg at hcon
        rw [List.drop_eq_nil_of_le hcon] at hne
        exact hne rfl
      have hlen2 : 35 ≤ ((c4Query w).take (i + 1) ++ u₁).length := by
        rw [List.length_append, hlen, List.length_take]
        omega
      have hml : mpLit.length = 35 := by decide
      have htail : (c4Query w).drop mpLit.length =
          ((c4Query w).take (i + 1) ++ u₁).drop mpLit.length ++ '(' :: v := by
        conv_lhs => rw [hq, ← List.append_assoc]
        rw [List.drop_append_eq_append_drop]
        have h0 : mpLit.length - ((c4Query w).take (i + 1) ++ u₁).length = 0 := by omega
        rw [h0, List.drop_zero]
      have hparen : '(' ∈ (c4Query w).drop mpLit.length := by
        rw [htail]
        simp
      rw [c4QueryDrop] at hparen
      exact c4ParenNotInTail w hlet hparen
    · rfl

/-- The single-value search cannot fire on a C4 query (it contains no
equality sign). -/
theorem c4SingleFoundFalse (w : List Char) (hlet : ∀ c ∈ w, isAsciiLetter c = true) :
    singleFoundB (c4Query w) = false := by
  by_contra hcon
  rw [Bool.not_eq_false] at hcon
  rw [singleFoundB, List.any_eq_true] at hcon
  obtain ⟨lvl, hlvl, hcont⟩ := hcon
  have hmemEq : '=' ∈ singlePatL lvl := by
    rw [singlePatL]
    simp only [List.mem_append]
    left; left; right
    decide
  obtain ⟨x, hx, hlx⟩ := ciContainsMemLower _ _ _ hmemEq hcont
  have hx2 : x = '=' := lowerCEqOfNotLower x '=' (by decide) hlx
  subst hx2
  rw [c4Query] at hx
  simp only [List.mem_append] at hx
  rcases hx with hx | hx | hx | hx
  · revert hx; decide
  · revert hx; decide
  · exact absurd (hlet '=' hx) (by decide)
  · revert hx; decide

/-- Representative family for the C4 correction: a query of the shape
`FIELD in ("LOW", "w")` with `w` a letter word that does not begin like
any of the five literals matches neither pattern, and the rewriter
returns the query unchanged — no replacement and no dropping of the
recognized values takes place. -/
theorem c4_amended_partial_list_unmatched (w : List Char)
    (hshape : ∃ c₀ w', w = c₀ :: w' ∧ lowerC c₀ ∉ ['u', 'l', 'm', 'h', 's'])
    (hlet : ∀ c ∈ w, isAsciiLetter c = true) :
    applyIL (c4Query w) = c4Query w ∧ multiSearch (c4Query w) = none := by
  obtain ⟨c₀, w', hw, hh⟩ := hshape
  have hms : multiSearch (c4Query w) = none :=
    multiSearchNoneOfAll _ (c4TryMatchNone w c₀ w' hw hlet hh)
  have hsf := c4SingleFoundFalse w hlet
  refine ⟨?_, hms⟩
  rw [applyIL, singlePass, if_neg (by simp [hsf])]
  rw [multiLoopRun]
  exact multiLoopFNone _ hms _

/-- The family lemma at the concrete foreign value "FOO". -/
theorem c4_amended_partial_list_unmatched_witness :
    ((∃ c₀ w', "FOO".toList = c₀ :: w' ∧ lowerC c₀ ∉ ['u', 'l', 'm', 'h', 's']) ∧
      ∀ c ∈ "FOO".toList, isAsciiLetter c = true) ∧
    (applyIL (c4Query "FOO".toList) = c4Query "FOO".toList ∧
      multiSearch (c4Query "FOO".toList) = none) :=
  ⟨⟨⟨'F', "OO".toList, rfl, by decide⟩, by decide⟩,
    c4_amended_partial_list_unmatched "FOO".toList
      ⟨'F', "OO".toList, rfl, by decide⟩ (by decide)⟩

/-- `p` occurs as a contiguous substring of `s`. -/
def occAt (p s : List Char) : Prop := ∃ a b, s = a ++ p ++ b

/-- Occurrence in a cons: either a prefix match or an occurrence in the
tail. -/
theorem occConsIff (p : List Char) (c : Char) (s : List Char) :
    occAt p (c :: s) ↔ (∃ q, p ++ q = c :: s) ∨ occAt p s := by
  constructor
  · rintro ⟨a, b, h⟩
    rcases a with _ | ⟨c', a'⟩
    · exact Or.inl ⟨b, by simpa using h.symm⟩
    · rw [List.cons_append, List.cons_append] at h
      injection h with h1 h2
      exact Or.inr ⟨a', b, h2⟩
  · rintro (⟨q, h⟩ | ⟨a, b, h⟩)
    · exact ⟨[], q, by simpa using h.symm⟩
    · exact ⟨c :: a, b, by simp [h]⟩

/-- Occurrence in an append splits into: inside the left part, inside
the right part, or straddling the boundary. -/
theorem occAppSplit (p x y : List Char) (h : occAt p (x ++ y)) :
    occAt p x ∨ occAt p y ∨
      ∃ p₁ p₂, p = p₁ ++ p₂ ∧ p₁ ≠ [] ∧ p₂ ≠ [] ∧
        (∃ a, a ++ p₁ = x) ∧ (∃ b, p₂ ++ b = y) := by
  induction x generalizing p with
  | nil =>
    rw [List.nil_append] at h
    exact Or.inr (Or.inl h)
  | cons c x' ih =>
    rw [List.cons_append] at h
    rw [occConsIff] at h
    rcases h with ⟨q, hq⟩ | h
    · rcases p with _ | ⟨cp, p'⟩
      · exact Or.inl ⟨[], c :: x', by simp⟩
      · rw [List.cons_append] at hq
        injection hq with h1 h2
        subst h1
        rcases List.append_eq_append_iff.mp h2 with ⟨a', ha1, _⟩ | ⟨c', hc1, hc2⟩
        · exact Or.inl ⟨[], a', by simp [ha1]⟩
        · rcases c' with _ | ⟨cc, c''⟩
          · rw [List.append_nil] at hc1
            exact Or.inl ⟨[], [], by simp [hc1]⟩
          · refine Or.inr (Or.inr ⟨cp :: x', cc :: c'', ?_, by simp, by simp, ⟨[], rfl⟩,
              ⟨q, hc2.symm⟩⟩)
            rw [hc1]
            simp
    · rcases ih p h with hx | hy | ⟨p₁, p₂, hp, hp1, hp2, ⟨a, ha⟩, hpre⟩
      · obtain ⟨a, b, hab⟩ := hx
        exact Or.inl ⟨c :: a, b, by simp [hab]⟩
      · exact Or.inr (Or.inl hy)
      · exact Or.inr (Or.inr ⟨p₁, p₂, hp, hp1, hp2, ⟨c :: a, by simp [ha]⟩, hpre⟩)

/-- Characters of an occurring pattern are characters of the string. -/
theorem occMem (p s : List Char) (c : Char) (hc : c ∈ p) (h : occAt p s) : c ∈ s := by
  obtain ⟨a, b, rfl⟩ := h
  simp [hc]

/-- A prefix is an initial take. -/
theorem prefTakeIff (p s : List Char) : (∃ q, p ++ q = s) ↔ s.take p.length = p := by
  constructor
  · rintro ⟨q, rfl⟩
    exact List.take_left p q
  · intro h
    exact ⟨s.drop p.length, by conv_rhs => rw [← List.take_append_drop p.length s, h]⟩

/-- `ciContainsB` decides case-insensitive occurrence. -/
theorem ciContainsIff (p s : List Char) :
    ciContainsB p s = true ↔ occAt p (s.map lowerC) := by
  induction s with
  | nil =>
    rw [ciContainsB, ciAt]
    simp only [List.take_nil, List.map_nil, beq_iff_eq]
    constructor
    · rintro rfl
      exact ⟨[], [], rfl⟩
    · rintro ⟨a, b, h⟩
      rcases List.append_eq_nil.mp (List.append_eq_nil.mp h.symm).1 with ⟨_, h2⟩
      exact h2
  | cons c s ih =>
    rw [ciContainsB, Bool.or_eq_true, ih, List.map_cons, occConsIff]
    have : ciAt p (c :: s) = true ↔ ∃ q, p ++ q = lowerC c :: s.map lowerC := by
      rw [ciAt, beq_iff_eq, prefTakeIff, ← List.map_cons, ← List.map_take]
      constructor
      · intro h
        rw [← h]
      · intro h
        rw [h]
    rw [this]

/-- Prefix tracking through the replace scan: a nonempty pattern part
`q` that survives as a prefix of the scan's output (lower-cased) and is
a suffix of `p.tail` — with the replacement's head excluded from
`p.tail` — must already be a prefix of the input (lower-cased). -/
theorem rAllFPref (g : Char → Char) (t r p : List Char) (rh : Char)
    (hrh1 : r.head? = some rh) (hrh2 : lowerC rh ∉ p.tail) :
    ∀ fuel s q, q ≠ [] → (∃ a, a ++ q = p.tail) →
      (∃ q2, q ++ q2 = (rAllF g t r fuel s).map lowerC) →
      ∃ q2, q ++ q2 = s.map lowerC := by
  intro fuel
  induction fuel with
  | zero => intro s q _ _ h; rwa [rAllF] at h
  | succ fuel ih =>
    intro s q hq hsuf hpre
    match s with
    | [] => rwa [rAllF] at hpre
    | c :: s' =>
      rw [rAllF] at hpre
      split at hpre
      · exfalso
        rcases r with _ | ⟨rh0, r'⟩
        · simp at hrh1
        · injection hrh1 with hrh1
          subst hrh1
          obtain ⟨q2, hq2⟩ := hpre
          rcases q with _ | ⟨q0, q'⟩
          · exact hq rfl
          · simp only [List.cons_append, List.map_cons] at hq2
            injection hq2 with h1 _
            obtain ⟨a, ha⟩ := hsuf
            apply hrh2
            rw [← h1, ← ha]
            simp
      · obtain ⟨q2, hq2⟩ := hpre
        rw [List.map_cons] at hq2
        rcases q with _ | ⟨q0, q'⟩
        · exact absurd rfl hq
        · rw [List.cons_append] at hq2
          injection hq2 with h1 h2
          rcases q' with _ | ⟨q1, q''⟩
          · refine ⟨s'.map lowerC, ?_⟩
            rw [List.map_cons, h1]
            rfl
          · obtain ⟨a, ha⟩ := hsuf
            obtain ⟨q2', hq2'⟩ := ih s' (q1 :: q'') (by simp) ⟨a ++ [q0], by simp [ha]⟩ ⟨q2, h2⟩
            refine ⟨q2', ?_⟩
            rw [List.map_cons, List.cons_append, h1, hq2']

/-- The last element of `l` lies in any nonempty suffix of `l`. -/
theorem lastMemOfSuffix (a p₁ l : List Char) (hp : p₁ ≠ []) (h : a ++ p₁ = l) (y : Char)
    (hy : l.getLast? = some y) : y ∈ p₁ := by
  subst h
  rw [List.getLast?_append] at hy
  obtain ⟨z, hz⟩ : ∃ z, p₁.getLast? = some z := by
    rcases p₁ with _ | ⟨c, p⟩
    · exact absurd rfl hp
    · exact ⟨(c :: p).getLast (by simp), List.getLast?_eq_getLast _ _⟩
  rw [hz] at hy
  have hy2 : z = y := by
    have : (some z).or a.getLast? = some z := rfl
    rw [this] at hy
    injection hy
  exact hy2 ▸ List.mem_of_mem_getLast? hz

/-- Lift an occurrence from a dropped tail to the whole string. -/
theorem occDropLift (p : List Char) (k : Nat) (s : List Char)
    (h : occAt p ((s.drop k).map lowerC)) : occAt p (s.map lowerC) := by
  obtain ⟨a, b, hab⟩ := h
  refine ⟨(s.take k).map lowerC ++ a, b, ?_⟩
  conv_lhs => rw [← List.take_append_drop k s]
  rw [List.map_append, hab]
  simp [List.append_assoc]

/-- Lift an occurrence from a tail to a cons. -/
theorem occConsLift (p : List Char) (c : Char) (s : List Char)
    (h : occAt p (s.map lowerC)) : occAt p ((c :: s).map lowerC) := by
  obtain ⟨a, b, hab⟩ := h
  exact ⟨lowerC c :: a, b, by simp [hab]⟩

/-- No-creation: a pattern `p` containing a double quote, which the
replacement `r` cannot occur in (no quote in `r`), cannot straddle (its
first and last characters are excluded from `p`), and which occurs in
the scan's output, must already occur in the input. -/
theorem rAllFNoCreate (g : Char → Char) (t r p : List Char) (rh rl : Char)
    (hpq : '"' ∈ p) (hrq : '"' ∉ r)
    (hrh1 : r.head? = some rh) (hrh2 : lowerC rh ∉ p.tail)
    (hrl1 : r.getLast? = some rl) (hrl2 : lowerC rl ∉ p) :
    ∀ fuel s, occAt p ((rAllF g t r fuel s).map lowerC) → occAt p (s.map lowerC) := by
  intro fuel
  induction fuel with
  | zero => intro s h; rwa [rAllF] at h
  | succ fuel ih =>
    intro s h
    match s with
    | [] => rwa [rAllF] at h
    | c :: s' =>
      rw [rAllF] at h
      split at h
      · rw [List.map_append] at h
        rcases occAppSplit _ _ _ h with hin | hin | hstr
        · exfalso
          have hq := occMem _ _ '"' hpq hin
          rw [List.mem_map] at hq
          obtain ⟨x, hx, hgx⟩ := hq
          have := lowerCEqOfNotLower x '"' (by decide) hgx
          subst this
          exact hrq hx
        · exact occConsLift p c s' (occDropLift p (t.length - 1) s' (ih _ hin))
        · exfalso
          obtain ⟨p₁, p₂, hp, hp1, _, ⟨a, ha⟩, _⟩ := hstr
          have hlast : (r.map lowerC).getLast? = some (lowerC rl) := by
            rcases List.eq_nil_or_concat r with rfl | ⟨L, x, hLx⟩
            · simp at hrh1
            · rw [List.concat_eq_append] at hLx
              have hx : x = rl := by
                rw [hLx, List.getLast?_concat] at hrl1
                injection hrl1
              subst hx
              rw [hLx, List.map_append, List.map_singleton, List.getLast?_concat]
          have hmem := lastMemOfSuffix a p₁ (r.map lowerC) hp1 ha (lowerC rl) hlast
          exact hrl2 (hp ▸ List.mem_append_left p₂ hmem)
      · rw [List.map_cons] at h
        rcases (occConsIff _ _ _).mp h with ⟨q, hpre⟩ | hin
        · rcases p with _ | ⟨p0, p'⟩
          · simp at hpq
          · rw [List.cons_append] at hpre
            injection hpre with h1 h2
            rcases p' with _ | ⟨p1, p''⟩
            · exact ⟨[], s'.map lowerC, by rw [List.map_cons, h1]; rfl⟩
            · obtain ⟨q2, hq2⟩ := rAllFPref g t r (p0 :: p1 :: p'') rh hrh1 hrh2 fuel s'
                (p1 :: p'') (by simp) ⟨[], rfl⟩ ⟨q, h2⟩
              exact ⟨[], q2, by rw [List.map_cons, h1, List.nil_append, List.cons_append, hq2]⟩
        · exact occConsLift p c s' (ih _ hin)

/-- Removal: after the case-insensitive replace scan, the pattern
itself no longer occurs, under the same side conditions. -/
theorem rAllFRemoveCI (t r : List Char) (rh rl : Char)
    (htq : '"' ∈ t) (hrq : '"' ∉ r)
    (hrh1 : r.head? = some rh) (hrh2 : lowerC rh ∉ t.tail)
    (hrl1 : r.getLast? = some rl) (hrl2 : lowerC rl ∉ t) :
    ∀ fuel s, s.length ≤ fuel → ¬ occAt t ((rAllF lowerC t r fuel s).map lowerC) := by
  intro fuel
  induction fuel with
  | zero =>
    intro s hlen h
    have hs : s = [] := List.eq_nil_of_length_eq_zero (by omega)
    subst hs
    rw [rAllF] at h
    obtain ⟨a, b, hab⟩ := h
    have := (List.append_eq_nil.mp (List.append_eq_nil.mp hab.symm).1).2
    subst this
    simp at htq
  | succ fuel ih =>
    intro s hlen h
    match s with
    | [] =>
      rw [rAllF] at h
      obtain ⟨a, b, hab⟩ := h
      have := (List.append_eq_nil.mp (List.append_eq_nil.mp hab.symm).1).2
      subst this
      simp at htq
    | c :: s' =>
      rw [rAllF] at h
      split at h
      · rw [List.map_append] at h
        rcases occAppSplit _ _ _ h with hin | hin | hstr
        · have hq := occMem _ _ '"' htq hin
          rw [List.mem_map] at hq
          obtain ⟨x, hx, hgx⟩ := hq
          have := lowerCEqOfNotLower x '"' (by decide) hgx
          subst this
          exact hrq hx
        · exact ih _ (by
            calc (s'.drop (t.length - 1)).length ≤ s'.length := by
                  rw [List.length_drop]; omega
              _ ≤ fuel := by simpa using Nat.le_of_succ_le_succ hlen) hin
        · obtain ⟨p₁, p₂, hp, hp1, _, ⟨a, ha⟩, _⟩ := hstr
          have hlast : (r.map lowerC).getLast? = some (lowerC rl) := by
            rcases List.eq_nil_or_concat r with rfl | ⟨L, x, hLx⟩
            · simp at hrh1
            · rw [List.concat_eq_append] at hLx
              have hx : x = rl := by
                rw [hLx, List.getLast?_concat] at hrl1
                injection hrl1
              subst hx
              rw [hLx, List.map_append, List.map_singleton, List.getLast?_concat]
          have hmem := lastMemOfSuffix a p₁ (r.map lowerC) hp1 ha (lowerC rl) hlast
          exact hrl2 (hp ▸ List.mem_append_left p₂ hmem)
      · rename_i hcond
        rw [List.map_cons] at h
        rcases (occConsIff _ _ _).mp h with ⟨q, hpre⟩ | hin
        · apply hcond
          refine ⟨by rintro rfl; simp at htq, ?_⟩
          have hprefix : ∃ q2, t ++ q2 = (c :: s').map lowerC := by
            rcases t with _ | ⟨t0, t'⟩
            · simp at htq
            · rw [List.cons_append] at hpre
              injection hpre with h1 h2
              rcases t' with _ | ⟨t1, t''⟩
              · exact ⟨s'.map lowerC, by rw [List.map_cons, h1]; rfl⟩
              · obtain ⟨q2, hq2⟩ := rAllFPref lowerC (t0 :: t1 :: t'') r (t0 :: t1 :: t'')
                  rh hrh1 hrh2 fuel s' (t1 :: t'') (by simp) ⟨[], rfl⟩ ⟨q, h2⟩
                exact ⟨q2, by rw [List.map_cons, h1, List.cons_append, hq2]⟩
          rw [prefTakeIff] at hprefix
          rw [← List.map_take] at hprefix
          exact hprefix.symm
        · exact ih _ (by simpa using Nat.le_of_succ_le_succ hlen) hin

/-- Structural side conditions of every replacement in the range table
against every single-value pattern: patterns contain a quote,
replacements contain none, and a replacement's first/last character
cannot continue or end any pattern. -/
theorem tableFacts : ∀ pr ∈ integrity_level_ranges, ∀ pr2 ∈ integrity_level_ranges,
    '"' ∈ singlePatL pr.1 ∧ '"' ∉ pr2.2 ∧
    (∃ rh, (pr2.2).head? = some rh ∧ lowerC rh ∉ (singlePatL pr.1).tail) ∧
    (∃ rl, (pr2.2).getLast? = some rl ∧ lowerC rl ∉ singlePatL pr.1) := by decide

/-- The multi-loop replacement delimiters cannot continue or end any
single-value pattern. -/
theorem parenFacts : ∀ pr ∈ integrity_level_ranges,
    lowerC '(' ∉ (singlePatL pr.1).tail ∧ lowerC ')' ∉ singlePatL pr.1 := by decide

/-- Folding the `re.sub` steps over a set of table entries removes every
processed pattern and creates no other pattern. -/
theorem foldCleanStep :
    ∀ (L : List (List Char × List Char)), (∀ pr ∈ L, pr ∈ integrity_level_ranges) →
    ∀ s, (∀ pr ∈ integrity_level_ranges, pr ∉ L →
      ¬ occAt (singlePatL pr.1) (s.map lowerC)) →
    ∀ pr ∈ integrity_level_ranges,
      ¬ occAt (singlePatL pr.1)
        ((L.foldl (fun acc q => rAll lowerC (singlePatL q.1) q.2 acc) s).map lowerC) := by
  intro L
  induction L with
  | nil =>
    intro _ s hinv pr hpr
    exact hinv pr hpr (by simp)
  | cons pr0 L' ih =>
    intro hL s hinv pr hpr
    rw [List.foldl_cons]
    refine ih (fun x hx => hL x (List.mem_cons_of_mem pr0 hx)) _ ?_ pr hpr
    intro pr2 hpr2 hnot2
    by_cases heq : pr2 = pr0
    · subst heq
      obtain ⟨hq, hrq, ⟨rh, hrh1, hrh2⟩, ⟨rl, hrl1, hrl2⟩⟩ :=
        tableFacts pr2 hpr2 pr2 hpr2
      exact rAllFRemoveCI (singlePatL pr2.1) pr2.2 rh rl hq hrq hrh1 hrh2 hrl1 hrl2
        s.length s le_rfl
    · have hnot : pr2 ∉ pr0 :: L' := by
        intro hmem
        rcases List.mem_cons.mp hmem with h | h
        · exact heq h
        · exact hnot2 h
      obtain ⟨hq, hrq, ⟨rh, hrh1, hrh2⟩, ⟨rl, hrl1, hrl2⟩⟩ :=
        tableFacts pr2 hpr2 pr0 (hL pr0 (by simp))
      intro hocc
      exact hinv pr2 hpr2 hnot
        (rAllFNoCreate lowerC (singlePatL pr0.1) pr0.2 (singlePatL pr2.1) rh rl
          hq hrq hrh1 hrh2 hrl1 hrl2 s.length s hocc)

/-- After the single-value pass no single-value pattern occurs. -/
theorem singlePassClean (s : List Char) :
    ∀ pr ∈ integrity_level_ranges,
      ¬ occAt (singlePatL pr.1) ((singlePass s).map lowerC) := by
  intro pr hpr
  rw [singlePass]
  split
  · exact foldCleanStep integrity_level_ranges (fun _ h => h) s
      (fun pr2 hpr2 hnot => absurd hpr2 hnot) pr hpr
  · rename_i hnf
    rw [Bool.not_eq_true, singleFoundB, List.any_eq_false] at hnf
    have hlvl : pr.1 ∈ levelKeys := by
      rw [levelKeys, List.mem_map]
      exact ⟨pr, hpr, rfl⟩
    have := hnf pr.1 hlvl
    rw [ciContainsIff] at this
    exact this

/-- The multi-value loop creates no single-value pattern. -/
theorem multiLoopClean : ∀ n s,
    (∀ pr ∈ integrity_level_ranges, ¬ occAt (singlePatL pr.1) (s.map lowerC)) →
    ∀ pr ∈ integrity_level_ranges,
      ¬ occAt (singlePatL pr.1) ((multiLoopF n s).map lowerC) := by
  intro n
  induction n with
  | zero => intro s h; rwa [multiLoopF]
  | succ n ih =>
    intro s h pr hpr
    rw [multiLoopF]
    rcases hms : multiSearch s with _ | t
    · exact h pr hpr
    · apply ih _ _ pr hpr
      intro pr2 hpr2 hocc
      obtain ⟨hq, _, _, _⟩ := tableFacts pr2 hpr2 pr2 hpr2
      have hhp : (mkRepl t).head? = some '(' := by rw [mkRepl]; rfl
      have hlp : (mkRepl t).getLast? = some ')' := by
        rw [mkRepl, ← List.cons_append]
        exact List.getLast?_concat _
      have hnq : '"' ∉ mkRepl t := by
        have := mkReplNoQuote t
        rwa [countQ, List.count_eq_zero] at this
      obtain ⟨hop, hcp⟩ := parenFacts pr2 hpr2
      exact h pr2 hpr2
        (rAllFNoCreate id t (mkRepl t) (singlePatL pr2.1) '(' ')' hq hnq hhp hop hlp hcp
          s.length s hocc)

/-- After the full rewrite no single-value pattern occurs. -/
theorem applyILClean (s : List Char) :
    ∀ pr ∈ integrity_level_ranges,
      ¬ occAt (singlePatL pr.1) ((applyIL s).map lowerC) := by
  intro pr hpr
  rw [applyIL, multiLoopRun]
  exact multiLoopClean _ _ (singlePassClean s) pr hpr

/-- The rewriter is idempotent on character lists. -/
theorem applyILIdem (s : List Char) : applyIL (applyIL s) = applyIL s := by
  have hsf : singleFoundB (applyIL s) = false := by
    rw [← Bool.not_eq_true]
    rw [singleFoundB, List.any_eq_true]
    rintro ⟨lvl, hlvl, hcont⟩
    rw [ciContainsIff] at hcont
    rw [levelKeys, List.mem_map] at hlvl
    obtain ⟨pr, hpr, rfl⟩ := hlvl
    exact applyILClean s pr hpr hcont
  have hms : multiSearch (applyIL s) = none := by
    rw [applyIL, multiLoopRun]
    exact (multiLoopFix (countQ (singlePass s)) _ le_rfl _ (by omega)).1
  rw [show applyIL (applyIL s) = multiLoopRun (singlePass (applyIL s)) from rfl]
  rw [singlePass, if_neg (by simp [hsf])]
  rw [multiLoopRun]
  exact multiLoopFNone _ hms _

/-- Claim C8: the integrity-level rewriter is idempotent — applying it
to its own output returns that output unchanged (the rewritten text
matches neither the single-value nor the multi-value pattern again). -/
theorem c8_rewriter_idempotent (q : String) : applyILs (applyILs q) = applyILs q :=
  congrArg String.mk (applyILIdem q.toList)

/-- Hexadecimal (and decimal) digit characters, lowercase. -/
def hexDigit (n : Nat) : Char :=
  if n < 10 then Char.ofNat (48 + n) else Char.ofNat (87 + n)

/-- A `\uXXXX` escape for a 16-bit value. -/
def uEsc4 (n : Nat) : List Char :=
  ['\\', 'u', hexDigit (n / 4096 % 16), hexDigit (n / 256 % 16),
    hexDigit (n / 16 % 16), hexDigit (n % 16)]

/-- `json.dumps` escaping of one character (`ensure_ascii=True`):
shortcut escapes, printable ASCII verbatim, everything else as
`\uXXXX`, astral code points as a surrogate pair. -/
def escC (c : Char) : List Char :=
  if c = '"' then ['\\', '"']
  else if c = '\\' then ['\\', '\\']
  else if c = '\n' then ['\\', 'n']
  else if c = '\t' then ['\\', 't']
  else if c = '\x0d' then ['\\', 'r']
  else if c = '\x08' then ['\\', 'b']
  else if c = '\x0c' then ['\\', 'f']
  else if 32 ≤ c.toNat ∧ c.toNat ≤ 126 then [c]
  else if c.toNat < 65536 then uEsc4 c.toNat
  else uEsc4 (55296 + (c.toNat - 65536) / 1024) ++ uEsc4 (56320 + (c.toNat - 65536) % 1024)

/-- Escape a whole string body. -/
def escStr : List Char → List Char
  | [] => []
  | c :: k => escC c ++ escStr k

/-- A serialized JSON string token. -/
def strTok (k : List Char) : List Char := '"' :: (escStr k ++ ['"'])

/-- Decimal digits of a natural number (fuel-indexed; `n + 1` fuel
suffices). -/
def natToCharsF : Nat → Nat → List Char
  | 0, _ => []
  | fuel + 1, n =>
    if n < 10 then [hexDigit n] else natToCharsF fuel (n / 10) ++ [hexDigit (n % 10)]

/-- Python `str` of a natural number. -/
def natToChars (n : Nat) : List Char := natToCharsF (n + 1) n

/-- Python `str` of an integer. -/
def intToChars (i : Int) : List Char :=
  if i < 0 then '-' :: natToChars (-i).toNat else natToChars i.toNat

mutual
/-- A JSON value as handled by `json.dumps`/`json.loads` (numbers
modelled as integers). -/
inductive JVal where
  | jnull
  | jb (b : Bool)
  | jn (n : Int)
  | js (s : List Char)
  | ja (a : JArr)
  | jo (o : JObj)
deriving DecidableEq
/-- A JSON array. -/
inductive JArr where
  | anil
  | acons (hd : JVal) (tl : JArr)
deriving DecidableEq
/-- A JSON object (ordered key/value pairs, as Python dicts preserve
insertion order). -/
inductive JObj where
  | onil
  | ocons (k : List Char) (v : JVal) (tl : JObj)
deriving DecidableEq
end

mutual
/-- `json.dumps` with its default separators `', '` and `': '` and
`ensure_ascii=True`. -/
def dumpsJ : JVal → List Char
  | .jnull => "null".toList
  | .jb true => "true".toList
  | .jb false => "false".toList
  | .jn n => intToChars n
  | .js s => strTok s
  | .ja a => '[' :: dumpsArrFirst a
  | .jo o => '{' :: dumpsObjFirst o
/-- Array body including the closing bracket. -/
def dumpsArrFirst : JArr → List Char
  | .anil => [']']
  | .acons v t => dumpsJ v ++ dumpsArrRest t
/-- Remaining array elements, each preceded by `', '`. -/
def dumpsArrRest : JArr → List Char
  | .anil => [']']
  | .acons v t => ',' :: ' ' :: (dumpsJ v ++ dumpsArrRest t)
/-- Object body including the closing brace. -/
def dumpsObjFirst : JObj → List Char
  | .onil => ['}']
  | .ocons k v t => strTok k ++ ':' :: ' ' :: (dumpsJ v ++ dumpsObjRest t)
/-- Remaining object entries, each preceded by `', '`. -/
def dumpsObjRest : JObj → List Char
  | .onil => ['}']
  | .ocons k v t => ',' :: ' ' :: (strTok k ++ ':' :: ' ' :: (dumpsJ v ++ dumpsObjRest t))
end

mutual
/-- Structural size, bounding the parser fuel. -/
def sizeJ : JVal → Nat
  | .jnull | .jb _ | .jn _ | .js _ => 1
  | .ja a => sizeA a + 1
  | .jo o => sizeO o + 1
/-- Size of an array. -/
def sizeA : JArr → Nat
  | .anil => 1
  | .acons v t => sizeJ v + sizeA t + 1
/-- Size of an object. -/
def sizeO : JObj → Nat
  | .onil => 1
  | .ocons _ v t => sizeJ v + sizeO t + 1
end

/-- Decimal digit test. -/
def isDigitB (c : Char) : Bool := 48 ≤ c.toNat ∧ c.toNat ≤ 57

/-- Hexadecimal digit value accepted by `json.loads` in `\u` escapes. -/
def hexValC (c : Char) : Option Nat :=
  if 48 ≤ c.toNat ∧ c.toNat ≤ 57 then some (c.toNat - 48)
  else if 97 ≤ c.toNat ∧ c.toNat ≤ 102 then some (c.toNat - 87)
  else if 65 ≤ c.toNat ∧ c.toNat ≤ 70 then some (c.toNat - 55)
  else none

/-- Read four hex digits. -/
def readHex4 : List Char → Option (Nat × List Char)
  | a :: b :: c :: d :: rest =>
    match hexValC a, hexValC b, hexValC c, hexValC d with
    | some va, some vb, some vc, some vd => some (va * 4096 + vb * 256 + vc * 16 + vd, rest)
    | _, _, _, _ => none
  | _ => none

/-- Greedily read a decimal digit run with accumulator. -/
def parseDigitsF : Nat → Nat → List Char → Nat × List Char
  | 0, acc, s => (acc, s)
  | _ + 1, acc, [] => (acc, [])
  | fuel + 1, acc, c :: s =>
    if isDigitB c then parseDigitsF fuel (acc * 10 + (c.toNat - 48)) s else (acc, c :: s)

/-- Decode a JSON string body up to the closing quote (fuel-indexed;
the input length suffices as fuel). -/
def parseStrBodyF : Nat → List Char → Option (List Char × List Char)
  | 0, _ => none
  | _ + 1, [] => none
  | fuel + 1, c :: rest =>
    if c = '"' then some ([], rest)
    else if c = '\\' then
      if rest.take 1 = ['"'] then
        (parseStrBodyF fuel (rest.drop 1)).map fun p => ('"' :: p.1, p.2)
      else if rest.take 1 = ['\\'] then
        (parseStrBodyF fuel (rest.drop 1)).map fun p => ('\\' :: p.1, p.2)
      else if rest.take 1 = ['/'] then
        (parseStrBodyF fuel (rest.drop 1)).map fun p => ('/' :: p.1, p.2)
      else if rest.take 1 = ['n'] then
        (parseStrBodyF fuel (rest.drop 1)).map fun p => ('\n' :: p.1, p.2)
      else if rest.take 1 = ['t'] then
        (parseStrBodyF fuel (rest.drop 1)).map fun p => ('\t' :: p.1, p.2)
      else if rest.take 1 = ['r'] then
        (parseStrBodyF fuel (rest.drop 1)).map fun p => ('\x0d' :: p.1, p.2)
      else if rest.take 1 = ['b'] then
        (parseStrBodyF fuel (rest.drop 1)).map fun p => ('\x08' :: p.1, p.2)
      else if rest.take 1 = ['f'] then
        (parseStrBodyF fuel (rest.drop 1)).map fun p => ('\x0c' :: p.1, p.2)
      else if rest.take 1 = ['u'] then
        match readHex4 (rest.drop 1) with
        | none => none
        | some (v, rest3) =>
          if 55296 ≤ v ∧ v ≤ 56319 then
            if rest3.take 2 = ['\\', 'u'] then
              match readHex4 (rest3.drop 2) with
              | none => none
              | some (v2, rest5) =>
                if 56320 ≤ v2 ∧ v2 ≤ 57343 then
                  (parseStrBodyF fuel rest5).map fun p =>
                    (Char.ofNat (65536 + (v - 55296) * 1024 + (v2 - 56320)) :: p.1, p.2)
                else none
            else none
          else if 56320 ≤ v ∧ v ≤ 57343 then none
          else (parseStrBodyF fuel rest3).map fun p => (Char.ofNat v :: p.1, p.2)
      else none
    else (parseStrBodyF fuel rest).map fun p => (c :: p.1, p.2)

mutual
/-- `json.loads` on the canonical text emitted by `dumpsJ` (exact
`', '`/`': '` spacing), fuel-indexed; `sizeJ` of the parsed value
bounds the fuel. -/
def parseJF : Nat → List Char → Option (JVal × List Char)
  | 0, _ => none
  | _ + 1, [] => none
  | fuel + 1, c :: rest =>
    if c = '"' then (parseStrBodyF rest.length rest).map fun p => (.js p.1, p.2)
    else if c = '[' then
      if rest.take 1 = [']'] then some (.ja .anil, rest.drop 1)
      else
        (parseJF fuel rest).bind fun p =>
          (parseArrRestF fuel p.2).map fun q => (.ja (.acons p.1 q.1), q.2)
    else if c = '{' then
      if rest.take 1 = ['}'] then some (.jo .onil, rest.drop 1)
      else if rest.take 1 = ['"'] then
        (parseStrBodyF (rest.drop 1).length (rest.drop 1)).bind fun pk =>
          match pk.2 with
          | ':' :: ' ' :: rest3 =>
            (parseJF fuel rest3).bind fun pv =>
              (parseObjRestF fuel pv.2).map fun q => (.jo (.ocons pk.1 pv.1 q.1), q.2)
          | _ => none
      else none
    else if c = 'n' then
      if rest.take 3 = "ull".toList then some (.jnull, rest.drop 3) else none
    else if c = 't' then
      if rest.take 3 = "rue".toList then some (.jb true, rest.drop 3) else none
    else if c = 'f' then
      if rest.take 4 = "alse".toList then some (.jb false, rest.drop 4) else none
    else if c = '-' then
      match rest.head? with
      | some d =>
        if isDigitB d then
          let p := parseDigitsF rest.length 0 rest
          some (.jn (-(Int.ofNat p.1)), p.2)
        else none
      | none => none
    else if isDigitB c then
      let p := parseDigitsF (c :: rest).length 0 (c :: rest)
      some (.jn (Int.ofNat p.1), p.2)
    else none
/-- Parse the rest of an array after one element. -/
def parseArrRestF : Nat → List Char → Option (JArr × List Char)
  | 0, _ => none
  | _ + 1, [] => none
  | fuel + 1, c :: rest =>
    if c = ']' then some (.anil, rest)
    else if c = ',' then
      if rest.take 1 = [' '] then
        (parseJF fuel (rest.drop 1)).bind fun p =>
          (parseArrRestF fuel p.2).map fun q => (.acons p.1 q.1, q.2)
      else none
    else none
/-- Parse the rest of an object after one entry. -/
def parseObjRestF : Nat → List Char → Option (JObj × List Char)
  | 0, _ => none
  | _ + 1, [] => none
  | fuel + 1, c :: rest =>
    if c = '}' then some (.onil, rest)
    else if c = ',' then
      if rest.take 2 = [' ', '"'] then
        (parseStrBodyF (rest.drop 2).length (rest.drop 2)).bind fun pk =>
          match pk.2 with
          | ':' :: ' ' :: rest3 =>
            (parseJF fuel rest3).bind fun pv =>
              (parseObjRestF fuel pv.2).map fun q => (.ocons pk.1 pv.1 q.1, q.2)
          | _ => none
      else none
    else none
end

/-- `json.loads` (canonical form): parse a value and require the input
to be fully consumed.  The fuel `2 * s.length + 1` dominates the
structural size of any value serialized into `s`. -/
def loadsJ (s : List Char) : Option JVal :=
  match parseJF (2 * s.length + 1) s with
  | some (j, []) => some j
  | _ => none

/-- `hexValC` inverts `hexDigit` on values below 16. -/
theorem hexValHexDigit (n : Nat) (h : n < 16) : hexValC (hexDigit n) = some n := by
  interval_cases n <;> decide

/-- Hex digits are never structural or query-pattern characters. -/
theorem hexDigitNe (n : Nat) (h : n < 16) :
    hexDigit n ≠ '"' ∧ hexDigit n ≠ '(' ∧ hexDigit n ≠ '=' ∧ hexDigit n ≠ ' ' ∧
      hexDigit n ≠ '\\' := by
  interval_cases n <;> decide

/-- Decimal digits produced by `hexDigit` below 10. -/
theorem hexDigitDec (n : Nat) (h : n < 10) :
    isDigitB (hexDigit n) = true ∧ (hexDigit n).toNat = 48 + n := by
  interval_cases n <;> exact ⟨by decide, by decide⟩

/-- `readHex4` inverts the four hex digits of `uEsc4`. -/
theorem readHex4Round (n : Nat) (rest : List Char) (h : n < 65536) :
    readHex4 (hexDigit (n / 4096 % 16) :: hexDigit (n / 256 % 16) ::
      hexDigit (n / 16 % 16) :: hexDigit (n % 16) :: rest) = some (n, rest) := by
  have h1 := hexValHexDigit (n / 4096 % 16) (Nat.mod_lt _ (by norm_num))
  have h2 := hexValHexDigit (n / 256 % 16) (Nat.mod_lt _ (by norm_num))
  have h3 := hexValHexDigit (n / 16 % 16) (Nat.mod_lt _ (by norm_num))
  have h4 := hexValHexDigit (n % 16) (Nat.mod_lt _ (by norm_num))
  simp only [readHex4, h1, h2, h3, h4]
  have : n / 4096 % 16 * 4096 + n / 256 % 16 * 256 + n / 16 % 16 * 16 + n % 16 = n := by
    omega
  rw [this]

/-- `take 1` of a cons cell. -/
theorem take1Cons (a : Char) (l : List Char) : (a :: l).take 1 = [a] := rfl

/-- `drop 1` of a cons cell. -/
theorem drop1Cons (a : Char) (l : List Char) : (a :: l).drop 1 = l := rfl

/-- `take 2` of a double cons. -/
theorem take2Cons (a b : Char) (l : List Char) : (a :: b :: l).take 2 = [a, b] := rfl

/-- `drop 2` of a double cons. -/
theorem drop2Cons (a b : Char) (l : List Char) : (a :: b :: l).drop 2 = l := rfl

/-- Decoding inverts escaping: `parseStrBodyF` recovers the original
characters of an escaped string body followed by its closing quote. -/
theorem parseStrBodyRound (k : List Char) : ∀ rest fuel,
    (escStr k ++ '"' :: rest).length ≤ fuel →
    parseStrBodyF fuel (escStr k ++ '"' :: rest) = some (k, rest) := by
  induction k with
  | nil =>
    intro rest fuel h
    rw [escStr, List.nil_append] at h ⊢
    obtain ⟨f, rfl⟩ : ∃ f, fuel = f + 1 := ⟨fuel - 1, by simp at h; omega⟩
    rw [parseStrBodyF, if_pos rfl]
  | cons c k' ih =>
    intro rest fuel h
    rw [escStr, List.append_assoc] at h ⊢
    by_cases hc1 : c = '"'
    · subst hc1
      rw [show escC '"' = ['\\', '"'] from rfl] at h ⊢
      rw [List.cons_append, List.cons_append, List.nil_append] at h ⊢
      rw [List.length_cons, List.length_cons] at h
      obtain ⟨f, rfl⟩ : ∃ f, fuel = f + 1 := ⟨fuel - 1, by omega⟩
      rw [parseStrBodyF, if_neg (by decide), if_pos rfl]
      rw [take1Cons, drop1Cons]
      rw [if_pos (by decide), ih rest f (by omega), Option.map_some']
    by_cases hc2 : c = '\\'
    · subst hc2
      rw [show escC '\\' = ['\\', '\\'] from rfl] at h ⊢
      rw [List.cons_append, List.cons_append, List.nil_append] at h ⊢
      rw [List.length_cons, List.length_cons] at h
      obtain ⟨f, rfl⟩ : ∃ f, fuel = f + 1 := ⟨fuel - 1, by omega⟩
      rw [parseStrBodyF, if_neg (by decide), if_pos rfl]
      rw [take1Cons, drop1Cons]
      rw [if_neg (by decide), if_pos (by decide), ih rest f (by omega), Option.map_some']
    by_cases hc3 : c = '\n'
    · subst hc3
      rw [show escC '\n' = ['\\', 'n'] from rfl] at h ⊢
      rw [List.cons_append, List.cons_append, List.nil_append] at h ⊢
      rw [List.length_cons, List.length_cons] at h
      obtain ⟨f, rfl⟩ : ∃ f, fuel = f + 1 := ⟨fuel - 1, by omega⟩
      rw [parseStrBodyF, if_neg (by decide), if_pos rfl]
      rw [take1Cons, drop1Cons]
      rw [if_neg (by decide), if_neg (by decide), if_neg (by decide), if_pos (by decide), ih rest f (by omega), Option.map_some']
    by_cases hc4 : c = '\t'
    · subst hc4
      rw [show escC '\t' = ['\\', 't'] from rfl] at h ⊢
      rw [List.cons_append, List.cons_append, List.nil_append] at h ⊢
      rw [List.length_cons, List.length_cons] at h
      obtain ⟨f, rfl⟩ : ∃ f, fuel = f + 1 := ⟨fuel - 1, by omega⟩
      rw [parseStrBodyF, if_neg (by decide), if_pos rfl]
      rw [take1Cons, drop1Cons]
      rw [if_neg (by decide), if_neg (by decide), if_neg (by decide), if_neg (by decide), if_pos (by decide), ih rest f (by omega), Option.map_some']
    by_cases hc5 : c = '\x0d'
    · subst hc5
      rw [show escC '\x0d' = ['\\', 'r'] from rfl] at h ⊢
      rw [List.cons_append, List.cons_append, List.nil_append] at h ⊢
      rw [List.length_cons, List.length_cons] at h
      obtain ⟨f, rfl⟩ : ∃ f, fuel = f + 1 := ⟨fuel - 1, by omega⟩
      rw [parseStrBodyF, if_neg (by decide), if_pos rfl]
      rw [take1Cons, drop1Cons]
      rw [if_neg (by decide), if_neg (by decide), if_neg (by decide), if_neg (by decide), if_neg (by decide), if_pos (by decide), ih rest f (by omega), Option.map_some']
    by_cases hc6 : c = '\x08'
    · subst hc6
      rw [show escC '\x08' = ['\\', 'b'] from rfl] at h ⊢
      rw [List.cons_append, List.cons_append, List.nil_append] at h ⊢
      rw [List.length_cons, List.length_cons] at h
      obtain ⟨f, rfl⟩ : ∃ f, fuel = f + 1 := ⟨fuel - 1, by omega⟩
      rw [parseStrBodyF, if_neg (by decide), if_pos rfl]
      rw [take1Cons, drop1Cons]
      rw [if_neg (by decide), if_neg (by decide), if_neg (by decide), if_neg (by decide), if_neg (by decide), if_neg (by decide), if_pos (by decide), ih rest f (by omega), Option.map_some']
    by_cases hc7 : c = '\x0c'
    · subst hc7
      rw [show escC '\x0c' = ['\\', 'f'] from rfl] at h ⊢
      rw [List.cons_append, List.cons_append, List.nil_append] at h ⊢
      rw [List.length_cons, List.length_cons] at h
      obtain ⟨f, rfl⟩ : ∃ f, fuel = f + 1 := ⟨fuel - 1, by omega⟩
      rw [parseStrBodyF, if_neg (by decide), if_pos rfl]
      rw [take1Cons, drop1Cons]
      rw [if_neg (by decide), if_neg (by decide), if_neg (by decide), if_neg (by decide), if_neg (by decide), if_neg (by decide), if_neg (by decide), if_pos (by decide), ih rest f (by omega), Option.map_some']
    by_cases hp : 32 ≤ c.toNat ∧ c.toNat ≤ 126
    · rw [escC, if_neg hc1, if_neg hc2, if_neg hc3, if_neg hc4, if_neg hc5, if_neg hc6,
        if_neg hc7, if_pos hp] at h ⊢
      rw [List.cons_append, List.nil_append] at h ⊢
      rw [List.length_cons] at h
      obtain ⟨f, rfl⟩ : ∃ f, fuel = f + 1 := ⟨fuel - 1, by omega⟩
      rw [parseStrBodyF, if_neg hc1, if_neg hc2, ih rest f (by omega), Option.map_some']
    have hvv : c.toNat < 55296 ∨ (57343 < c.toNat ∧ c.toNat < 1114112) := c.valid
    by_cases hs : c.toNat < 65536
    · -- basic-plane character escaped as a single `\uXXXX`
      rw [escC, if_neg hc1, if_neg hc2, if_neg hc3, if_neg hc4, if_neg hc5, if_neg hc6,
        if_neg hc7, if_neg hp, if_pos hs, uEsc4] at h ⊢
      simp only [List.cons_append, List.nil_append] at h ⊢
      simp only [List.length_cons] at h
      obtain ⟨f, rfl⟩ : ∃ f, fuel = f + 1 := ⟨fuel - 1, by omega⟩
      rw [parseStrBodyF, if_neg (by decide), if_pos rfl]
      rw [take1Cons, drop1Cons]
      rw [if_neg (by decide), if_neg (by decide), if_neg (by decide), if_neg (by decide), if_neg (by decide), if_neg (by decide), if_neg (by decide), if_neg (by decide), if_pos (by decide), readHex4Round c.toNat _ hs]
      simp only []
      rw [if_neg (by omega), if_neg (by omega), ih rest f (by omega), Option.map_some',
        Char.ofNat_toNat]
    · -- astral character escaped as a surrogate pair
      rw [escC, if_neg hc1, if_neg hc2, if_neg hc3, if_neg hc4, if_neg hc5, if_neg hc6,
        if_neg hc7, if_neg hp, if_neg hs, uEsc4, uEsc4] at h ⊢
      simp only [List.cons_append, List.nil_append, List.append_assoc] at h ⊢
      simp only [List.length_cons] at h
      obtain ⟨f, rfl⟩ : ∃ f, fuel = f + 1 := ⟨fuel - 1, by omega⟩
      rw [parseStrBodyF, if_neg (by decide), if_pos rfl]
      rw [take1Cons, drop1Cons]
      rw [if_neg (by decide), if_neg (by decide), if_neg (by decide), if_neg (by decide), if_neg (by decide), if_neg (by decide), if_neg (by decide), if_neg (by decide), if_pos (by decide), readHex4Round _ _ (by omega)]
      simp only []
      rw [if_pos (by omega)]
      rw [take2Cons, drop2Cons, if_pos rfl, readHex4Round _ _ (by omega)]
      simp only []
      rw [if_pos (by omega), ih rest f (by omega), Option.map_some']
      have harg : 65536 + (55296 + (c.toNat - 65536) / 1024 - 55296) * 1024 +
          (56320 + (c.toNat - 65536) % 1024 - 56320) = c.toNat := by
        omega
      rw [harg, Char.ofNat_toNat]

/-- Every character emitted by the decimal rendering is a digit. -/
theorem natToCharsFDigits : ∀ fuel n c, c ∈ natToCharsF fuel n → isDigitB c = true := by
  intro fuel
  induction fuel with
  | zero => intro n c hc; simp [natToCharsF] at hc
  | succ f ih =>
    intro n c hc
    rw [natToCharsF] at hc
    split at hc
    · rename_i h10
      simp only [List.mem_singleton] at hc
      subst hc
      exact (hexDigitDec n h10).1
    · rcases List.mem_append.mp hc with h | h
      · exact ih _ _ h
      · simp only [List.mem_singleton] at h
        subst h
        exact (hexDigitDec _ (Nat.mod_lt _ (by norm_num))).1

/-- The decimal rendering is nonempty given positive fuel. -/
theorem natToCharsFNe (fuel n : Nat) (h : 0 < fuel) : natToCharsF fuel n ≠ [] := by
  match fuel, h with
  | f + 1, _ =>
    rw [natToCharsF]
    split
    · simp
    · simp

/-- The decimal rendering starts with a digit. -/
theorem natToCharsShape (n : Nat) :
    ∃ h t, natToChars n = h :: t ∧ isDigitB h = true := by
  have hne := natToCharsFNe (n + 1) n (by omega)
  rcases hl : natToCharsF (n + 1) n with _ | ⟨h, t⟩
  · exact absurd hl hne
  · refine ⟨h, t, by rw [natToChars, hl], natToCharsFDigits (n + 1) n h ?_⟩
    rw [hl]
    simp

/-- Folding the digit accumulator over the decimal rendering recovers
the number. -/
theorem natToCharsFVal : ∀ fuel n, n < fuel →
    (natToCharsF fuel n).foldl (fun a c => a * 10 + (c.toNat - 48)) 0 = n := by
  intro fuel
  induction fuel with
  | zero => intro n h; exact absurd h (Nat.not_lt_zero n)
  | succ f ih =>
    intro n h
    rw [natToCharsF]
    split
    · rename_i h10
      simp only [List.foldl_cons, List.foldl_nil]
      rw [(hexDigitDec n h10).2]
      omega
    · rename_i h10
      push_neg at h10
      rw [List.foldl_append]
      have hrec : n / 10 < f := by
        have h1 := Nat.div_lt_self (by omega : 0 < n) (by norm_num : (1 : Nat) < 10)
        omega
      rw [ih _ hrec]
      simp only [List.foldl_cons, List.foldl_nil]
      rw [(hexDigitDec (n % 10) (Nat.mod_lt _ (by norm_num))).2]
      omega

/-- `natToCharsFVal` specialized to the standard fuel. -/
theorem natToCharsVal (n : Nat) :
    (natToChars n).foldl (fun a c => a * 10 + (c.toNat - 48)) 0 = n := by
  rw [natToChars]
  exact natToCharsFVal (n + 1) n (by omega)

/-- No digit run continues into the remainder: a predicate on what
follows a serialized number. -/
def restOK (s : List Char) : Prop :=
  ∀ d rest2, s = d :: rest2 → isDigitB d = false

/-- `restOK` for an explicit non-digit head. -/
theorem restOKCons (c : Char) (s : List Char) (hc : isDigitB c = false) :
    restOK (c :: s) := by
  intro d r2 h
  injection h with h1 h2
  subst h1
  exact hc

/-- The digit scanner consumes exactly a digit run followed by a
non-digit remainder. -/
theorem parseDigitsRun : ∀ ds : List Char, ∀ fuel acc rest,
    (∀ c ∈ ds, isDigitB c = true) → restOK rest → ds.length ≤ fuel →
    parseDigitsF fuel acc (ds ++ rest) =
      (ds.foldl (fun a c => a * 10 + (c.toNat - 48)) acc, rest) := by
  intro ds
  induction ds with
  | nil =>
    intro fuel acc rest hds hrest hlen
    rw [List.nil_append, List.foldl_nil]
    match fuel with
    | 0 => rw [parseDigitsF]
    | f + 1 =>
      rcases rest with _ | ⟨d, rest2⟩
      · rw [parseDigitsF]
      · rw [parseDigitsF, if_neg (by simp [hrest d rest2 rfl])]
  | cons d ds ih =>
    intro fuel acc rest hds hrest hlen
    obtain ⟨f, rfl⟩ : ∃ f, fuel = f + 1 := ⟨fuel - 1, by simp at hlen; omega⟩
    rw [List.cons_append, parseDigitsF, if_pos (hds d (by simp)), List.foldl_cons]
    exact ih f _ rest (fun c hc => hds c (by simp [hc])) hrest (by simp at hlen; omega)

/-- A digit character differs from every parser dispatch literal. -/
theorem digitNeLits (c : Char) (h : isDigitB c = true) :
    c ≠ '"' ∧ c ≠ '[' ∧ c ≠ '{' ∧ c ≠ 'n' ∧ c ≠ 't' ∧ c ≠ 'f' ∧ c ≠ '-' ∧
      c ≠ ']' ∧ c ≠ '}' := by
  refine ⟨?_, ?_, ?_, ?_, ?_, ?_, ?_, ?_, ?_⟩ <;>
    (intro heq; subst heq; exact absurd h (by decide))

/-- The first character of a serialized value determines its parser
branch and is never a closing bracket. -/
theorem dumpsHeadShape (v : JVal) : ∃ h t, dumpsJ v = h :: t ∧
    (h = 'n' ∨ h = 't' ∨ h = 'f' ∨ h = '"' ∨ h = '[' ∨ h = '{' ∨ h = '-' ∨
      isDigitB h = true) := by
  cases v with
  | jnull => exact ⟨'n', ['u', 'l', 'l'], rfl, by simp⟩
  | jb b =>
    cases b with
    | true => exact ⟨'t', ['r', 'u', 'e'], rfl, by simp⟩
    | false => exact ⟨'f', ['a', 'l', 's', 'e'], rfl, by simp⟩
  | jn i =>
    rw [dumpsJ, intToChars]
    split
    · exact ⟨'-', _, rfl, by simp⟩
    · obtain ⟨h, t, he, hd⟩ := natToCharsShape _
      exact ⟨h, t, he, by simp [hd]⟩
  | js s => exact ⟨'"', _, rfl, by simp⟩
  | ja a => exact ⟨'[', _, rfl, by simp⟩
  | jo o => exact ⟨'{', _, rfl, by simp⟩

/-- The head of a serialized value is never `]` or `}`. -/
theorem dumpsHeadNe (v : JVal) :
    ∃ h t, dumpsJ v = h :: t ∧ h ≠ ']' ∧ h ≠ '}' := by
  obtain ⟨h, t, he, hd⟩ := dumpsHeadShape v
  refine ⟨h, t, he, ?_, ?_⟩ <;>
    rcases hd with rfl | rfl | rfl | rfl | rfl | rfl | rfl | hd <;>
      first
        | decide
        | (intro heq; subst heq; exact absurd hd (by decide))

/-- What follows an array element never starts with a digit. -/
theorem restOKArrRest (t : JArr) (rest : List Char) :
    restOK (dumpsArrRest t ++ rest) := by
  cases t with
  | anil =>
    rw [dumpsArrRest, List.singleton_append]
    exact restOKCons _ _ (by decide)
  | acons v t2 =>
    rw [dumpsArrRest, List.cons_append]
    exact restOKCons _ _ (by decide)

/-- What follows an object entry never starts with a digit. -/
theorem restOKObjRest (o : JObj) (rest : List Char) :
    restOK (dumpsObjRest o ++ rest) := by
  cases o with
  | onil =>
    rw [dumpsObjRest, List.singleton_append]
    exact restOKCons _ _ (by decide)
  | ocons k v t2 =>
    rw [dumpsObjRest, List.cons_append]
    exact restOKCons _ _ (by decide)

/-- Structural sizes are positive. -/
theorem sizeJPos (j : JVal) : 1 ≤ sizeJ j := by
  cases j <;> rw [sizeJ] <;> omega

/-- Array sizes are positive. -/
theorem sizeAPos (a : JArr) : 1 ≤ sizeA a := by
  cases a <;> rw [sizeA] <;> omega

/-- Object sizes are positive. -/
theorem sizeOPos (o : JObj) : 1 ≤ sizeO o := by
  cases o <;> rw [sizeO] <;> omega

/-- The canonical parser inverts serialization: with fuel at least the
structural size, parsing a serialized value followed by a non-digit
remainder returns the value and the remainder (jointly for values,
array tails and object tails). -/
theorem roundAll : ∀ fuel,
    (∀ j rest, sizeJ j ≤ fuel → restOK rest →
      parseJF fuel (dumpsJ j ++ rest) = some (j, rest)) ∧
    (∀ a rest, sizeA a ≤ fuel → restOK rest →
      parseArrRestF fuel (dumpsArrRest a ++ rest) = some (a, rest)) ∧
    (∀ o rest, sizeO o ≤ fuel → restOK rest →
      parseObjRestF fuel (dumpsObjRest o ++ rest) = some (o, rest)) := by
  intro fuel
  induction fuel with
  | zero =>
    refine ⟨?_, ?_, ?_⟩
    · intro j rest hs _
      exact absurd hs (by have := sizeJPos j; omega)
    · intro a rest hs _
      exact absurd hs (by have := sizeAPos a; omega)
    · intro o rest hs _
      exact absurd hs (by have := sizeOPos o; omega)
  | succ fuel ih =>
    obtain ⟨ihJ, ihA, ihO⟩ := ih
    refine ⟨?_, ?_, ?_⟩
    · intro j rest hsz hrest
      cases j with
      | jnull => rfl
      | jb b => cases b <;> rfl
      | jn i =>
        rw [dumpsJ, intToChars]
        by_cases hi : i < 0
        · rw [if_pos hi, List.cons_append, parseJF, if_neg (by decide), if_neg (by decide),
            if_neg (by decide), if_neg (by decide), if_neg (by decide), if_neg (by decide),
            if_pos rfl]
          obtain ⟨h, t2, he, hd⟩ := natToCharsShape (-i).toNat
          have hhead : (natToChars (-i).toNat ++ rest).head? = some h := by
            rw [he]
            rfl
          rw [hhead]
          simp only []
          rw [if_pos hd,
            parseDigitsRun (natToChars (-i).toNat) _ 0 rest
              (fun c hc => natToCharsFDigits _ _ c hc) hrest
              (by rw [List.length_append]; omega)]
          simp only []
          rw [natToCharsVal]
          have hval : -(Int.ofNat (-i).toNat) = i := by
            rw [Int.ofNat_eq_natCast]
            omega
          rw [hval]
        · rw [if_neg hi]
          obtain ⟨h, t2, he, hd⟩ := natToCharsShape i.toNat
          obtain ⟨hn1, hn2, hn3, hn4, hn5, hn6, hn7, _, _⟩ := digitNeLits h hd
          rw [he, List.cons_append, parseJF, if_neg hn1, if_neg hn2, if_neg hn3,
            if_neg hn4, if_neg hn5, if_neg hn6, if_neg hn7, if_pos hd]
          rw [← List.cons_append, ← he]
          simp only []
          rw [parseDigitsRun (natToChars i.toNat) _ 0 rest
              (fun c hc => natToCharsFDigits _ _ c hc) hrest
              (by rw [List.length_append]; omega)]
          simp only []
          rw [natToCharsVal]
          have hval : Int.ofNat i.toNat = i := by
            rw [Int.ofNat_eq_natCast]
            omega
          rw [hval]
      | js s =>
        rw [dumpsJ, strTok, List.cons_append, List.append_assoc, List.singleton_append,
          parseJF, if_pos rfl,
          parseStrBodyRound s rest _ (le_refl _), Option.map_some']
      | ja a =>
        cases a with
        | anil => rfl
        | acons v t =>
          rw [dumpsJ, dumpsArrFirst, List.cons_append, List.append_assoc, parseJF,
            if_neg (by decide), if_pos rfl]
          obtain ⟨h, t2, he, hne1, _⟩ := dumpsHeadNe v
          have htake : (dumpsJ v ++ (dumpsArrRest t ++ rest)).take 1 = [h] := by
            rw [he]
            rfl
          rw [htake, if_neg (by simp [hne1]),
            ihJ v _ (by rw [sizeJ, sizeA] at hsz; omega) (restOKArrRest t rest),
            Option.some_bind]
          simp only []
          rw [ihA t rest (by rw [sizeJ, sizeA] at hsz; omega) hrest, Option.map_some']
      | jo o =>
        cases o with
        | onil => rfl
        | ocons k v t =>
          rw [dumpsJ, dumpsObjFirst, strTok]
          simp only [List.cons_append, List.append_assoc, List.singleton_append,
            List.nil_append]
          rw [parseJF, if_neg (by decide), if_neg (by decide), if_pos rfl]
          rw [take1Cons, if_neg (by decide), if_pos rfl, drop1Cons]
          rw [parseStrBodyRound k _ _ (le_refl _), Option.some_bind]
          simp only []
          rw [ihJ v _ (by rw [sizeJ, sizeO] at hsz; omega) (restOKObjRest t rest),
            Option.some_bind]
          simp only []
          rw [ihO t rest (by rw [sizeJ, sizeO] at hsz; omega) hrest, Option.map_some']
    · intro a rest hsz hrest
      cases a with
      | anil => rfl
      | acons v t =>
        rw [dumpsArrRest]
        simp only [List.cons_append, List.append_assoc]
        rw [parseArrRestF, if_neg (by decide), if_pos rfl]
        rw [take1Cons, if_pos rfl, drop1Cons]
        rw [ihJ v _ (by rw [sizeA] at hsz; omega) (restOKArrRest t rest),
          Option.some_bind]
        simp only []
        rw [ihA t rest (by rw [sizeA] at hsz; omega) hrest, Option.map_some']
    · intro o rest hsz hrest
      cases o with
      | onil => rfl
      | ocons k v t =>
        rw [dumpsObjRest, strTok]
        simp only [List.cons_append, List.append_assoc, List.singleton_append,
          List.nil_append]
        rw [parseObjRestF, if_neg (by decide), if_pos rfl]
        rw [take2Cons, if_pos rfl, drop2Cons]
        rw [parseStrBodyRound k _ _ (le_refl _), Option.some_bind]
        simp only []
        rw [ihJ v _ (by rw [sizeO] at hsz; omega) (restOKObjRest t rest),
          Option.some_bind]
        simp only []
        rw [ihO t rest (by rw [sizeO] at hsz; omega) hrest, Option.map_some']

/-- A serialized integer is nonempty. -/
theorem intToCharsLen (i : Int) : 1 ≤ (intToChars i).length := by
  rw [intToChars]
  split
  · simp
  · obtain ⟨h, t, he, _⟩ := natToCharsShape _
    rw [he]
    simp

mutual
/-- Structural size is bounded by twice the serialized length. -/
theorem sizeJLe : ∀ j : JVal, sizeJ j ≤ 2 * (dumpsJ j).length
  | .jnull => by decide
  | .jb true => by decide
  | .jb false => by decide
  | .jn i => by
    have h := intToCharsLen i
    rw [sizeJ, dumpsJ]
    omega
  | .js s => by
    rw [sizeJ, dumpsJ, strTok, List.length_cons, List.length_append]
    omega
  | .ja a => by
    have h := sizeAFLe a
    rw [sizeJ, dumpsJ, List.length_cons]
    omega
  | .jo o => by
    have h := sizeOFLe o
    rw [sizeJ, dumpsJ, List.length_cons]
    omega
/-- Array-body variant of the size bound. -/
theorem sizeAFLe : ∀ a : JArr, sizeA a ≤ 2 * (dumpsArrFirst a).length
  | .anil => by decide
  | .acons v t => by
    have h1 := sizeJLe v
    have h2 := sizeARLe t
    rw [sizeA, dumpsArrFirst, List.length_append]
    omega
/-- Array-tail variant of the size bound. -/
theorem sizeARLe : ∀ a : JArr, sizeA a + 1 ≤ 2 * (dumpsArrRest a).length
  | .anil => by decide
  | .acons v t => by
    have h1 := sizeJLe v
    have h2 := sizeARLe t
    rw [sizeA, dumpsArrRest, List.length_cons, List.length_cons, List.length_append]
    omega
/-- Object-body variant of the size bound. -/
theorem sizeOFLe : ∀ o : JObj, sizeO o ≤ 2 * (dumpsObjFirst o).length
  | .onil => by decide
  | .ocons k v t => by
    have h1 := sizeJLe v
    have h2 := sizeORLe t
    rw [sizeO, dumpsObjFirst, List.length_append, List.length_cons, List.length_cons,
      List.length_append]
    omega
/-- Object-tail variant of the size bound. -/
theorem sizeORLe : ∀ o : JObj, sizeO o + 1 ≤ 2 * (dumpsObjRest o).length
  | .onil => by decide
  | .ocons k v t => by
    have h1 := sizeJLe v
    have h2 := sizeORLe t
    rw [sizeO, dumpsObjRest, List.length_cons, List.length_cons, List.length_append,
      List.length_cons, List.length_cons, List.length_append]
    omega
end

/-- The empty remainder trivially satisfies `restOK`. -/
theorem restOKNil : restOK [] := by
  intro d r2 h
  exact absurd h (by simp)

/-- `json.loads` inverts `json.dumps`. -/
theorem loadsDumps (j : JVal) : loadsJ (dumpsJ j) = some j := by
  have h1 : parseJF (2 * (dumpsJ j).length + 1) (dumpsJ j ++ []) = some (j, []) :=
    (roundAll _).1 j [] (by have := sizeJLe j; omega) restOKNil
  rw [List.append_nil] at h1
  rw [loadsJ, h1]

/-- Forbidden trigram `("L` (`L` a letter): every multi-value regex
match contains one, serialized JSON never does. -/
def Bad3 (s : List Char) : Prop :=
  ∃ z, isAsciiLetter z = true ∧ occAt ['(', '"', z] s

/-- Forbidden tetragram `= "L` (`L` a letter): every single-value regex
match contains one, serialized JSON never does. -/
def Bad4 (s : List Char) : Prop :=
  ∃ z, isAsciiLetter z = true ∧ occAt ['=', ' ', '"', z] s

/-- What may follow a string token in serialized JSON: nothing, or a
separator/closer character. -/
def headClose (s : List Char) : Prop :=
  s = [] ∨ ∃ c s', s = c :: s' ∧ (c = ':' ∨ c = ',' ∨ c = '}' ∨ c = ']')

/-- The shape of serialized JSON text: structural characters (never
`(`, `=` or a bare quote) interleaved with string tokens, each token
followed by a separator/closer or the end. -/
inductive Shape : List Char → Prop where
  | nil : Shape []
  | plain (c : Char) (s : List Char) : c ≠ '(' → c ≠ '=' → c ≠ '"' → Shape s →
      Shape (c :: s)
  | tok (k s : List Char) : headClose s → Shape s → Shape (strTok k ++ s)

/-- The special query characters never occur in a `\uXXXX` escape. -/
theorem notInUEsc (n : Nat) (x : Char)
    (hx : x = '(' ∨ x = '=' ∨ x = ' ' ∨ x = '"') : x ∉ uEsc4 n := by
  rw [uEsc4]
  intro h
  simp only [List.mem_cons, List.not_mem_nil, or_false] at h
  have hne1 := hexDigitNe (n / 4096 % 16) (Nat.mod_lt _ (by norm_num))
  have hne2 := hexDigitNe (n / 256 % 16) (Nat.mod_lt _ (by norm_num))
  have hne3 := hexDigitNe (n / 16 % 16) (Nat.mod_lt _ (by norm_num))
  have hne4 := hexDigitNe (n % 16) (Nat.mod_lt _ (by norm_num))
  rcases h with h | h | h | h | h | h <;> subst h <;>
    rcases hx with h | h | h | h <;>
    first
      | exact absurd h (by decide)
      | exact hne1.2.1 h
      | exact hne1.2.2.1 h
      | exact hne1.2.2.2.1 h
      | exact hne1.1 h
      | exact hne2.2.1 h
      | exact hne2.2.2.1 h
      | exact hne2.2.2.2.1 h
      | exact hne2.1 h
      | exact hne3.2.1 h
      | exact hne3.2.2.1 h
      | exact hne3.2.2.2.1 h
      | exact hne3.1 h
      | exact hne4.2.1 h
      | exact hne4.2.2.1 h
      | exact hne4.2.2.2.1 h
      | exact hne4.1 h

/-- The ten branches of the escape function. -/
theorem escCBranches (c : Char) :
    escC c = ['\\', '"'] ∨ escC c = ['\\', '\\'] ∨ escC c = ['\\', 'n'] ∨
      escC c = ['\\', 't'] ∨ escC c = ['\\', 'r'] ∨ escC c = ['\\', 'b'] ∨
      escC c = ['\\', 'f'] ∨ (escC c = [c] ∧ c ≠ '"' ∧ c ≠ '\\') ∨
      (∃ n, escC c = uEsc4 n) ∨ (∃ n m, escC c = uEsc4 n ++ uEsc4 m) := by
  by_cases h1 : c = '"'
  · subst h1
    exact Or.inl rfl
  by_cases h2 : c = '\\'
  · subst h2
    exact Or.inr (Or.inl rfl)
  by_cases h3 : c = '\n'
  · subst h3
    exact Or.inr (Or.inr (Or.inl rfl))
  by_cases h4 : c = '\t'
  · subst h4
    exact Or.inr (Or.inr (Or.inr (Or.inl rfl)))
  by_cases h5 : c = '\x0d'
  · subst h5
    exact Or.inr (Or.inr (Or.inr (Or.inr (Or.inl rfl))))
  by_cases h6 : c = '\x08'
  · subst h6
    exact Or.inr (Or.inr (Or.inr (Or.inr (Or.inr (Or.inl rfl)))))
  by_cases h7 : c = '\x0c'
  · subst h7
    exact Or.inr (Or.inr (Or.inr (Or.inr (Or.inr (Or.inr (Or.inl rfl))))))
  by_cases hp : 32 ≤ c.toNat ∧ c.toNat ≤ 126
  · refine Or.inr (Or.inr (Or.inr (Or.inr (Or.inr (Or.inr (Or.inr (Or.inl ⟨?_, h1, h2⟩)))))))
    rw [escC, if_neg h1, if_neg h2, if_neg h3, if_neg h4, if_neg h5, if_neg h6, if_neg h7,
      if_pos hp]
  by_cases hs : c.toNat < 65536
  · refine Or.inr (Or.inr (Or.inr (Or.inr (Or.inr (Or.inr (Or.inr (Or.inr (Or.inl
      ⟨c.toNat, ?_⟩))))))))
    rw [escC, if_neg h1, if_neg h2, if_neg h3, if_neg h4, if_neg h5, if_neg h6, if_neg h7,
      if_neg hp, if_pos hs]
  · refine Or.inr (Or.inr (Or.inr (Or.inr (Or.inr (Or.inr (Or.inr (Or.inr (Or.inr
      ⟨55296 + (c.toNat - 65536) / 1024, 56320 + (c.toNat - 65536) % 1024, ?_⟩))))))))
    rw [escC, if_neg h1, if_neg h2, if_neg h3, if_neg h4, if_neg h5, if_neg h6, if_neg h7,
      if_neg hp, if_neg hs]

/-- If one of the special query characters occurs in an escaped
character, the escape is that bare character itself. -/
theorem memEscCSp (c x : Char) (hx : x = '(' ∨ x = '=' ∨ x = ' ')
    (h : x ∈ escC c) : escC c = [x] := by
  rcases escCBranches c with hb | hb | hb | hb | hb | hb | hb | ⟨hb, _, _⟩ |
    ⟨n, hb⟩ | ⟨n, m, hb⟩
  · rw [hb] at h
    exact absurd h (by rcases hx with rfl | rfl | rfl <;> decide)
  · rw [hb] at h
    exact absurd h (by rcases hx with rfl | rfl | rfl <;> decide)
  · rw [hb] at h
    exact absurd h (by rcases hx with rfl | rfl | rfl <;> decide)
  · rw [hb] at h
    exact absurd h (by rcases hx with rfl | rfl | rfl <;> decide)
  · rw [hb] at h
    exact absurd h (by rcases hx with rfl | rfl | rfl <;> decide)
  · rw [hb] at h
    exact absurd h (by rcases hx with rfl | rfl | rfl <;> decide)
  · rw [hb] at h
    exact absurd h (by rcases hx with rfl | rfl | rfl <;> decide)
  · rw [hb] at h
    simp only [List.mem_singleton] at h
    rw [hb, h]
  · rw [hb] at h
    exact absurd h (notInUEsc n x (by rcases hx with rfl | rfl | rfl <;> simp))
  · rw [hb] at h
    rcases List.mem_append.mp h with h | h
    · exact absurd h (notInUEsc n x (by rcases hx with rfl | rfl | rfl <;> simp))
    · exact absurd h (notInUEsc m x (by rcases hx with rfl | rfl | rfl <;> simp))

/-- A double quote occurs in an escaped character only as the escaped
quote itself. -/
theorem quoteInEscC (c : Char) (h : '"' ∈ escC c) : escC c = ['\\', '"'] := by
  rcases escCBranches c with hb | hb | hb | hb | hb | hb | hb | ⟨hb, hne, _⟩ |
    ⟨n, hb⟩ | ⟨n, m, hb⟩
  · exact hb
  · rw [hb] at h
    exact absurd h (by decide)
  · rw [hb] at h
    exact absurd h (by decide)
  · rw [hb] at h
    exact absurd h (by decide)
  · rw [hb] at h
    exact absurd h (by decide)
  · rw [hb] at h
    exact absurd h (by decide)
  · rw [hb] at h
    exact absurd h (by decide)
  · rw [hb] at h
    simp only [List.mem_singleton] at h
    exact absurd h.symm hne
  · rw [hb] at h
    exact absurd h (notInUEsc n '"' (by simp))
  · rw [hb] at h
    rcases List.mem_append.mp h with h | h
    · exact absurd h (notInUEsc n '"' (by simp))
    · exact absurd h (notInUEsc m '"' (by simp))

/-- Escapes are nonempty. -/
theorem escCNe (c : Char) : escC c ≠ [] := by
  rcases escCBranches c with hb | hb | hb | hb | hb | hb | hb | ⟨hb, _, _⟩ |
    ⟨n, hb⟩ | ⟨n, m, hb⟩ <;> rw [hb] <;> simp [uEsc4]

/-- If an escaped-body region starts with a bare quote, the body is
empty and the quote is its closing delimiter. -/
theorem regionHeadQuote : ∀ k s r, escStr k ++ '"' :: s = '"' :: r → k = [] ∧ r = s := by
  intro k s r h
  cases k with
  | nil =>
    rw [escStr, List.nil_append] at h
    injection h with _ h2
    exact ⟨rfl, h2.symm⟩
  | cons c k2 =>
    exfalso
    rw [escStr, List.append_assoc] at h
    rcases hE : escC c with _ | ⟨h1, t1⟩
    · exact escCNe c hE
    · rw [hE, List.cons_append] at h
      injection h with hh _
      have hq : '"' ∈ escC c := by
        rw [hE, hh]
        simp
      have h2 := quoteInEscC c hq
      rw [hE] at h2
      injection h2 with h3 _
      rw [hh] at h3
      exact absurd h3 (by decide)

/-- An escaped-body region never reads `"L` with `L` a letter: the
character after the closing quote is a separator/closer. -/
theorem regionQuoteLetter (k s : List Char) (z : Char) (b : List Char)
    (hcl : headClose s) (h : escStr k ++ '"' :: s = '"' :: z :: b)
    (hz : isAsciiLetter z = true) : False := by
  obtain ⟨hk, hr⟩ := regionHeadQuote k s (z :: b) h
  rcases hcl with h0 | ⟨cc, ss, hss, hor⟩
  · rw [h0] at hr
    exact absurd hr.symm (by simp)
  · rw [hss] at hr
    injection hr.symm with hz1 _
    subst hz1
    rcases hor with rfl | rfl | rfl | rfl <;> exact absurd hz (by decide)

/-- An escaped-body region never reads <code> "L</code> with `L` a
letter. -/
theorem regionSpaceQuote (k s : List Char) (z : Char) (b : List Char)
    (hcl : headClose s) (h : escStr k ++ '"' :: s = ' ' :: '"' :: z :: b)
    (hz : isAsciiLetter z = true) : False := by
  cases k with
  | nil =>
    rw [escStr, List.nil_append] at h
    injection h with h1 _
    exact absurd h1 (by decide)
  | cons c k2 =>
    rw [escStr, List.append_assoc] at h
    rcases hE : escC c with _ | ⟨h1, t1⟩
    · exact escCNe c hE
    · rw [hE, List.cons_append] at h
      injection h with hh htail
      have hsp : ' ' ∈ escC c := by
        rw [hE, hh]
        simp
      have h2 := memEscCSp c ' ' (Or.inr (Or.inr rfl)) hsp
      rw [hE] at h2
      injection h2 with _ h3
      rw [h3, List.nil_append] at htail
      exact regionQuoteLetter k2 s z b hcl htail hz

/-- Appending an escaped string body and its closing quote to a clean
remainder introduces no forbidden gram. -/
theorem escRegion : ∀ k s, headClose s → ¬ Bad3 s → ¬ Bad4 s →
    ¬ Bad3 (escStr k ++ '"' :: s) ∧ ¬ Bad4 (escStr k ++ '"' :: s) := by
  intro k
  induction k with
  | nil =>
    intro s hcl h3 h4
    rw [escStr, List.nil_append]
    constructor
    · rintro ⟨z, hz, hocc⟩
      rw [occConsIff] at hocc
      rcases hocc with ⟨q, hq⟩ | hocc
      · injection hq with h1 _
        exact absurd h1 (by decide)
      · exact h3 ⟨z, hz, hocc⟩
    · rintro ⟨z, hz, hocc⟩
      rw [occConsIff] at hocc
      rcases hocc with ⟨q, hq⟩ | hocc
      · injection hq with h1 _
        exact absurd h1 (by decide)
      · exact h4 ⟨z, hz, hocc⟩
  | cons c k2 ih =>
    intro s hcl h3 h4
    obtain ⟨ih3, ih4⟩ := ih s hcl h3 h4
    rw [escStr, List.append_assoc]
    constructor
    · rintro ⟨z, hz, hocc⟩
      rcases occAppSplit _ _ _ hocc with hin | hin |
        ⟨p₁, p₂, hp, hp1, hp2, ⟨a, ha⟩, ⟨b, hb⟩⟩
      · have hq : '"' ∈ escC c := occMem _ _ '"' (by simp) hin
        have h2 := quoteInEscC c hq
        obtain ⟨a, b, hab⟩ := hin
        rw [h2] at hab
        have hlen := congrArg List.length hab
        simp only [List.length_append, List.length_cons, List.length_nil] at hlen
        omega
      · exact ih3 ⟨z, hz, hin⟩
      · rcases p₁ with _ | ⟨x1, p₁'⟩
        · exact hp1 rfl
        rcases p₁' with _ | ⟨x2, p₁''⟩
        · injection hp with hx1 hp2e
          subst hx1
          have hp2f : ['"', z] = p₂ := hp2e
          rw [← hp2f] at hb
          exact regionQuoteLetter k2 s z b hcl hb.symm hz
        rcases p₁'' with _ | ⟨x3, p₁'''⟩
        · injection hp with hx1 hrest
          injection hrest with hx2 hp2e
          subst hx1
          subst hx2
          have hmem : '"' ∈ escC c := by
            rw [← ha]
            simp
          have h2 := quoteInEscC c hmem
          rw [h2] at ha
          have hlen := congrArg List.length ha
          simp only [List.length_append, List.length_cons, List.length_nil] at hlen
          have ha0 : a = [] := List.length_eq_zero.mp (by omega)
          subst ha0
          rw [List.nil_append] at ha
          injection ha with hc1 _
          exact absurd hc1 (by decide)
        · have hlen := congrArg List.length hp
          simp only [List.length_append, List.length_cons, List.length_nil] at hlen
          exact hp2 (List.length_eq_zero.mp (by omega))
    · rintro ⟨z, hz, hocc⟩
      rcases occAppSplit _ _ _ hocc with hin | hin |
        ⟨p₁, p₂, hp, hp1, hp2, ⟨a, ha⟩, ⟨b, hb⟩⟩
      · have hq : '"' ∈ escC c := occMem _ _ '"' (by simp) hin
        have h2 := quoteInEscC c hq
        obtain ⟨a, b, hab⟩ := hin
        rw [h2] at hab
        have hlen := congrArg List.length hab
        simp only [List.length_append, List.length_cons, List.length_nil] at hlen
        omega
      · exact ih4 ⟨z, hz, hin⟩
      · rcases p₁ with _ | ⟨x1, p₁'⟩
        · exact hp1 rfl
        rcases p₁' with _ | ⟨x2, p₁''⟩
        · injection hp with hx1 hp2e
          subst hx1
          have hp2f : [' ', '"', z] = p₂ := hp2e
          rw [← hp2f] at hb
          exact regionSpaceQuote k2 s z b hcl hb.symm hz
        rcases p₁'' with _ | ⟨x3, p₁'''⟩
        · injection hp with hx1 hrest
          injection hrest with hx2 hp2e
          subst hx1
          subst hx2
          have hmem : ' ' ∈ escC c := by
            rw [← ha]
            simp
          have hE := memEscCSp c ' ' (Or.inr (Or.inr rfl)) hmem
          rw [hE] at ha
          have hlen := congrArg List.length ha
          simp only [List.length_append, List.length_cons, List.length_nil] at hlen
          omega
        rcases p₁''' with _ | ⟨x4, p₁''''⟩
        · injection hp with hx1 hrest
          injection hrest with hx2 hrest2
          injection hrest2 with hx3 hp2e
          subst hx1
          subst hx2
          subst hx3
          have hmem : '"' ∈ escC c := by
            rw [← ha]
            simp
          have h2 := quoteInEscC c hmem
          rw [h2] at ha
          have hlen := congrArg List.length ha
          simp only [List.length_append, List.length_cons, List.length_nil] at hlen
          omega
        · have hlen := congrArg List.length hp
          simp only [List.length_append, List.length_cons, List.length_nil] at hlen
          exact hp2 (List.length_eq_zero.mp (by omega))

/-- Text of serialized-JSON shape contains no forbidden gram. -/
theorem shapeNoBad (s : List Char) (hs : Shape s) : ¬ Bad3 s ∧ ¬ Bad4 s := by
  induction hs with
  | nil =>
    constructor <;> rintro ⟨z, hz, a, b, hab⟩ <;>
      (have hlen := congrArg List.length hab;
       simp only [List.length_append, List.length_cons, List.length_nil] at hlen; omega)
  | plain c s' hc1 hc2 hc3 hsub ih =>
    obtain ⟨ih3, ih4⟩ := ih
    constructor
    · rintro ⟨z, hz, hocc⟩
      rw [occConsIff] at hocc
      rcases hocc with ⟨q, hq⟩ | hocc
      · injection hq with h1 _
        exact hc1 h1.symm
      · exact ih3 ⟨z, hz, hocc⟩
    · rintro ⟨z, hz, hocc⟩
      rw [occConsIff] at hocc
      rcases hocc with ⟨q, hq⟩ | hocc
      · injection hq with h1 _
        exact hc2 h1.symm
      · exact ih4 ⟨z, hz, hocc⟩
  | tok k s' hcl hsub ih =>
    obtain ⟨ih3, ih4⟩ := ih
    have hreg := escRegion k s' hcl ih3 ih4
    rw [strTok, List.cons_append, List.append_assoc, List.singleton_append]
    constructor
    · rintro ⟨z, hz, hocc⟩
      rw [occConsIff] at hocc
      rcases hocc with ⟨q, hq⟩ | hocc
      · injection hq with h1 _
        exact absurd h1 (by decide)
      · exact hreg.1 ⟨z, hz, hocc⟩
    · rintro ⟨z, hz, hocc⟩
      rw [occConsIff] at hocc
      rcases hocc with ⟨q, hq⟩ | hocc
      · injection hq with h1 _
        exact absurd h1 (by decide)
      · exact hreg.2 ⟨z, hz, hocc⟩

/-- Lists of plain structural characters keep the serialized shape. -/
theorem plainList : ∀ (cs s : List Char),
    (∀ c ∈ cs, c ≠ '(' ∧ c ≠ '=' ∧ c ≠ '"') → Shape s → Shape (cs ++ s) := by
  intro cs
  induction cs with
  | nil =>
    intro s _ hs
    rw [List.nil_append]
    exact hs
  | cons c cs' ih =>
    intro s hc hs
    rw [List.cons_append]
    obtain ⟨h1, h2, h3⟩ := hc c (by simp)
    exact Shape.plain c _ h1 h2 h3 (ih s (fun x hx => hc x (by simp [hx])) hs)

/-- Digits are plain structural characters. -/
theorem digitPlain (c : Char) (h : isDigitB c = true) :
    c ≠ '(' ∧ c ≠ '=' ∧ c ≠ '"' := by
  refine ⟨?_, ?_, ?_⟩ <;> (intro heq; subst heq; exact absurd h (by decide))

/-- A serialized integer consists of plain structural characters. -/
theorem intToCharsPlain (i : Int) :
    ∀ c ∈ intToChars i, c ≠ '(' ∧ c ≠ '=' ∧ c ≠ '"' := by
  intro c hc
  rw [intToChars] at hc
  split at hc
  · rcases List.mem_cons.mp hc with rfl | hc2
    · exact ⟨by decide, by decide, by decide⟩
    · exact digitPlain c (natToCharsFDigits _ _ c hc2)
  · exact digitPlain c (natToCharsFDigits _ _ c hc)

/-- What follows an array element satisfies `headClose`. -/
theorem headCloseArrRest (t : JArr) (rest : List Char) :
    headClose (dumpsArrRest t ++ rest) := by
  cases t with
  | anil =>
    rw [dumpsArrRest, List.singleton_append]
    exact Or.inr ⟨']', rest, rfl, by simp⟩
  | acons v t2 =>
    rw [dumpsArrRest, List.cons_append]
    exact Or.inr ⟨',', _, rfl, by simp⟩

/-- What follows an object entry satisfies `headClose`. -/
theorem headCloseObjRest (o : JObj) (rest : List Char) :
    headClose (dumpsObjRest o ++ rest) := by
  cases o with
  | onil =>
    rw [dumpsObjRest, List.singleton_append]
    exact Or.inr ⟨'}', rest, rfl, by simp⟩
  | ocons k v t2 =>
    rw [dumpsObjRest, List.cons_append]
    exact Or.inr ⟨',', _, rfl, by simp⟩

mutual
/-- Serialized values have the serialized-JSON shape (relative to a
well-shaped remainder). -/
theorem shapeDumpsJ : ∀ (j : JVal) (s : List Char), headClose s → Shape s →
    Shape (dumpsJ j ++ s)
  | .jnull, s, _, hs => plainList "null".toList s (by decide) hs
  | .jb true, s, _, hs => plainList "true".toList s (by decide) hs
  | .jb false, s, _, hs => plainList "false".toList s (by decide) hs
  | .jn i, s, _, hs => plainList (intToChars i) s (intToCharsPlain i) hs
  | .js k, s, hcl, hs => Shape.tok k s hcl hs
  | .ja a, s, hcl, hs => by
    rw [dumpsJ, List.cons_append]
    exact Shape.plain '[' _ (by decide) (by decide) (by decide)
      (shapeDumpsArrFirst a s hcl hs)
  | .jo o, s, hcl, hs => by
    rw [dumpsJ, List.cons_append]
    exact Shape.plain '{' _ (by decide) (by decide) (by decide)
      (shapeDumpsObjFirst o s hcl hs)
/-- Serialized array bodies have the serialized-JSON shape. -/
theorem shapeDumpsArrFirst : ∀ (a : JArr) (s : List Char), headClose s → Shape s →
    Shape (dumpsArrFirst a ++ s)
  | .anil, s, _, hs => by
    rw [dumpsArrFirst, List.singleton_append]
    exact Shape.plain ']' _ (by decide) (by decide) (by decide) hs
  | .acons v t, s, hcl, hs => by
    rw [dumpsArrFirst, List.append_assoc]
    exact shapeDumpsJ v _ (headCloseArrRest t s) (shapeDumpsArrRest t s hcl hs)
/-- Serialized array tails have the serialized-JSON shape. -/
theorem shapeDumpsArrRest : ∀ (a : JArr) (s : List Char), headClose s → Shape s →
    Shape (dumpsArrRest a ++ s)
  | .anil, s, _, hs => by
    rw [dumpsArrRest, List.singleton_append]
    exact Shape.plain ']' _ (by decide) (by decide) (by decide) hs
  | .acons v t, s, hcl, hs => by
    rw [dumpsArrRest, List.cons_append, List.cons_append, List.append_assoc]
    exact Shape.plain ',' _ (by decide) (by decide) (by decide)
      (Shape.plain ' ' _ (by decide) (by decide) (by decide)
        (shapeDumpsJ v _ (headCloseArrRest t s) (shapeDumpsArrRest t s hcl hs)))
/-- Serialized object bodies have the serialized-JSON shape. -/
theorem shapeDumpsObjFirst : ∀ (o : JObj) (s : List Char), headClose s → Shape s →
    Shape (dumpsObjFirst o ++ s)
  | .onil, s, _, hs => by
    rw [dumpsObjFirst, List.singleton_append]
    exact Shape.plain '}' _ (by decide) (by decide) (by decide) hs
  | .ocons k v t, s, hcl, hs => by
    rw [dumpsObjFirst, List.append_assoc, List.cons_append, List.cons_append]
    exact Shape.tok k _ (Or.inr ⟨':', _, rfl, by simp⟩)
      (Shape.plain ':' _ (by decide) (by decide) (by decide)
        (Shape.plain ' ' _ (by decide) (by decide) (by decide)
          (by
            rw [List.append_assoc]
            exact shapeDumpsJ v _ (headCloseObjRest t s)
              (shapeDumpsObjRest t s hcl hs))))
/-- Serialized object tails have the serialized-JSON shape. -/
theorem shapeDumpsObjRest : ∀ (o : JObj) (s : List Char), headClose s → Shape s →
    Shape (dumpsObjRest o ++ s)
  | .onil, s, _, hs => by
    rw [dumpsObjRest, List.singleton_append]
    exact Shape.plain '}' _ (by decide) (by decide) (by decide) hs
  | .ocons k v t, s, hcl, hs => by
    rw [dumpsObjRest, List.cons_append, List.cons_append, List.append_assoc,
      List.cons_append, List.cons_append]
    exact Shape.plain ',' _ (by decide) (by decide) (by decide)
      (Shape.plain ' ' _ (by decide) (by decide) (by decide)
        (Shape.tok k _ (Or.inr ⟨':', _, rfl, by simp⟩)
          (Shape.plain ':' _ (by decide) (by decide) (by decide)
            (Shape.plain ' ' _ (by decide) (by decide) (by decide)
              (by
                rw [List.append_assoc]
                exact shapeDumpsJ v _ (headCloseObjRest t s)
                  (shapeDumpsObjRest t s hcl hs))))))
end

/-- Serialized values have the serialized-JSON shape. -/
theorem shapeDumps (j : JVal) : Shape (dumpsJ j) := by
  have h := shapeDumpsJ j [] (Or.inl rfl) Shape.nil
  rwa [List.append_nil] at h

/-- Serialized JSON contains neither forbidden gram. -/
theorem dumpsNoBad (j : JVal) : ¬ Bad3 (dumpsJ j) ∧ ¬ Bad4 (dumpsJ j) :=
  shapeNoBad _ (shapeDumps j)

/-- A character lowering to an ASCII letter is itself an ASCII letter. -/
theorem letterOfLowerC (x k : Char) (h : lowerC x = k) (hk : isAsciiLetter k = true) :
    isAsciiLetter x = true := by
  by_cases hc : 'A' ≤ x ∧ x ≤ 'Z'
  · rw [isAsciiLetter]
    exact decide_eq_true (Or.inl hc)
  · rw [lowerC, if_neg hc] at h
    subst h
    exact hk

/-- A successful quoted-level parse reads a quote and then a character
lowering to the first letter of one of the five levels. -/
theorem pqShape (v : List Char) (n : Nat) (h : parseQuoted v = some n) :
    ∃ y w', v = '"' :: y :: w' ∧
      (lowerC y = 'u' ∨ lowerC y = 'l' ∨ lowerC y = 'm' ∨ lowerC y = 'h' ∨
        lowerC y = 's') := by
  match v with
  | [] => simp [parseQuoted] at h
  | c :: s =>
    rw [parseQuoted] at h
    split at h
    · rename_i hc
      subst hc
      rcases ho : levelKeysL.findSome? fun lvl =>
          if lvl = (s.take lvl.length).map lowerC then some lvl.length else none with _ | k
      · rw [ho] at h
        simp at h
      · obtain ⟨lvl, hmem, hf⟩ := List.exists_of_findSome?_eq_some ho
        split at hf
        · rename_i heq
          have hlv : ∃ l₀ lt, lvl = l₀ :: lt ∧
              (l₀ = 'u' ∨ l₀ = 'l' ∨ l₀ = 'm' ∨ l₀ = 'h' ∨ l₀ = 's') := by
            fin_cases hmem
            · exact ⟨'u', _, rfl, by simp⟩
            · exact ⟨'l', _, rfl, by simp⟩
            · exact ⟨'m', _, rfl, by simp⟩
            · exact ⟨'h', _, rfl, by simp⟩
            · exact ⟨'s', _, rfl, by simp⟩
          obtain ⟨l₀, lt, rfl, hl₀⟩ := hlv
          rw [List.length_cons] at heq
          rcases s with _ | ⟨y, s'⟩
          · rw [List.take_nil, List.map_nil] at heq
            exact absurd heq (by simp)
          · rw [List.take_succ_cons, List.map_cons] at heq
            injection heq with h1 _
            refine ⟨y, s', rfl, ?_⟩
            rcases hl₀ with rfl | rfl | rfl | rfl | rfl
            · exact Or.inl h1.symm
            · exact Or.inr (Or.inl h1.symm)
            · exact Or.inr (Or.inr (Or.inl h1.symm))
            · exact Or.inr (Or.inr (Or.inr (Or.inl h1.symm)))
            · exact Or.inr (Or.inr (Or.inr (Or.inr h1.symm)))
        · exact absurd hf (by simp)
    · exact absurd h (by simp)

/-- A successful items parse begins with a successful quoted-level
parse. -/
theorem parseItemsPQ (fuel : Nat) (v : List Char) (m : Nat)
    (h : parseItemsF fuel v = some m) : ∃ q, parseQuoted v = some q := by
  match fuel with
  | 0 => simp [parseItemsF] at h
  | fuel + 1 =>
    rw [parseItemsF] at h
    rcases hq : parseQuoted v with _ | q
    · rw [hq] at h
      simp at h
    · exact ⟨q, rfl⟩

/-- A successful multi-pattern match at the head exhibits the forbidden
trigram. -/
theorem tryMatchBad (s : List Char) (n : Nat) (h : tryMatchAt s = some n) :
    ∃ z, isAsciiLetter z = true ∧ occAt ['(', '"', z] s := by
  rw [tryMatchAt] at h
  split at h
  · rename_i hci
    rcases hp : parseItems (s.drop mpLit.length) with _ | m
    · rw [hp] at h
      simp at h
    · obtain ⟨u₁, v, hs, hlen⟩ := ciAtParen s hci
      have hdrop : s.drop mpLit.length = v := by
        rw [hs, show u₁ ++ '(' :: v = (u₁ ++ ['(']) ++ v by simp,
          show mpLit.length = (u₁ ++ ['(']).length by
            simp only [List.length_append, List.length_cons, List.length_nil, hlen]
            decide]
        exact List.drop_left _ _
      rw [hdrop] at hp
      rw [parseItems] at hp
      obtain ⟨q, hq⟩ := parseItemsPQ _ _ _ hp
      obtain ⟨y, w', hv, hy⟩ := pqShape v q hq
      have hyl : isAsciiLetter y = true := by
        rcases hy with h2 | h2 | h2 | h2 | h2 <;> exact letterOfLowerC y _ h2 (by decide)
      refine ⟨y, hyl, u₁, w', ?_⟩
      rw [hs, hv]
      simp
  · exact absurd h (by simp)

/-- A successful multi-pattern search exhibits the forbidden trigram. -/
theorem multiBad (s t : List Char) (h : multiSearch s = some t) : Bad3 s := by
  induction s with
  | nil => simp [multiSearch] at h
  | cons c s' ih =>
    rw [multiSearch] at h
    rcases hm : tryMatchAt (c :: s') with _ | n
    · rw [hm] at h
      obtain ⟨z, hz, a, b, hab⟩ := ih h
      exact ⟨z, hz, c :: a, b, by rw [hab]; simp⟩
    · obtain ⟨z, hz, hocc⟩ := tryMatchBad _ _ hm
      exact ⟨z, hz, hocc⟩

/-- A successful single-pattern search exhibits the forbidden
tetragram. -/
theorem singleBad (s : List Char) (h : singleFoundB s = true) : Bad4 s := by
  rw [singleFoundB, List.any_eq_true] at h
  obtain ⟨lvl, hmem, hci⟩ := h
  rw [ciContainsIff] at hci
  have hsplit : ∃ k₀ B, (k₀ = 'u' ∨ k₀ = 'l' ∨ k₀ = 'm' ∨ k₀ = 'h' ∨ k₀ = 's') ∧
      singlePatL lvl =
        "action_process_integrity_level ".toList ++ ['=', ' ', '"', k₀] ++ B := by
    fin_cases hmem
    · exact ⟨'u', "ntrusted\"".toList, by simp, by decide⟩
    · exact ⟨'l', "ow\"".toList, by simp, by decide⟩
    · exact ⟨'m', "edium\"".toList, by simp, by decide⟩
    · exact ⟨'h', "igh\"".toList, by simp, by decide⟩
    · exact ⟨'s', "ystem\"".toList, by simp, by decide⟩
  obtain ⟨k₀, B, hk, hpat⟩ := hsplit
  rw [hpat] at hci
  obtain ⟨a, b, hab⟩ := hci
  have hocc : occAt ['=', ' ', '"', k₀] (s.map lowerC) :=
    ⟨a ++ "action_process_integrity_level ".toList, B ++ b, by rw [hab]; simp⟩
  obtain ⟨a2, b2, hab2⟩ := hocc
  obtain ⟨a3, rest3, hs3, hma, hmr⟩ := List.map_eq_append_iff.mp hab2
  obtain ⟨a4, g4, ha3, hma2, hmg⟩ := List.map_eq_append_iff.mp hma
  rcases g4 with _ | ⟨x1, g4⟩
  · rw [List.map_nil] at hmg
    exact absurd hmg (by simp)
  rcases g4 with _ | ⟨x2, g4⟩
  · rw [List.map_cons, List.map_nil] at hmg
    exact absurd hmg (by simp)
  rcases g4 with _ | ⟨x3, g4⟩
  · rw [List.map_cons, List.map_cons, List.map_nil] at hmg
    exact absurd hmg (by simp)
  rcases g4 with _ | ⟨x4, g4⟩
  · rw [List.map_cons, List.map_cons, List.map_cons, List.map_nil] at hmg
    exact absurd hmg (by simp)
  rw [List.map_cons, List.map_cons, List.map_cons, List.map_cons] at hmg
  injection hmg with he1 hmg
  injection hmg with he2 hmg
  injection hmg with he3 hmg
  injection hmg with he4 hmg
  have hg0 : g4 = [] := List.map_eq_nil_iff.mp hmg
  subst hg0
  have hx1 : x1 = '=' := lowerCEqOfNotLower x1 '=' (by decide) he1
  have hx2 : x2 = ' ' := lowerCEqOfNotLower x2 ' ' (by decide) he2
  have hx3 : x3 = '"' := lowerCEqOfNotLower x3 '"' (by decide) he3
  have hx4 : isAsciiLetter x4 = true := by
    rcases hk with rfl | rfl | rfl | rfl | rfl <;>
      exact letterOfLowerC x4 _ he4 (by decide)
  subst hx1
  subst hx2
  subst hx3
  refine ⟨x4, hx4, a4, rest3, ?_⟩
  rw [hs3, ha3]

/-- Neither regex of the integrity-level rewriter ever matches
serialized JSON text. -/
theorem dumpsNoFire (j : JVal) :
    singleFoundB (dumpsJ j) = false ∧ multiSearch (dumpsJ j) = none := by
  obtain ⟨h3, h4⟩ := dumpsNoBad j
  constructor
  · by_contra hcon
    rw [Bool.not_eq_false] at hcon
    exact h4 (singleBad _ hcon)
  · rcases hm : multiSearch (dumpsJ j) with _ | t
    · rfl
    · exact absurd (multiBad _ _ hm) h3

/-- The full string rewrite is the identity on serialized JSON text. -/
theorem applyILDumps (j : JVal) : applyIL (dumpsJ j) = dumpsJ j := by
  obtain ⟨h1, h2⟩ := dumpsNoFire j
  rw [applyIL, singlePass, if_neg (by rw [h1]; simp), multiLoopRun]
  exact multiLoopFNone _ h2 _

/-- A query as passed to
`ReplaceIntegrityLevelQueryTransformation.apply`: the source annotates
it `Union[str, dict]` and branches on `isinstance(query, dict)`
(lines 28 and 31-35). -/
inductive Query where
  | qstr (s : String)
  | qdict (o : JObj)
deriving DecidableEq

/-- A returned query value: the string kept by the default path, or the
JSON value produced by the final `json.loads` (lines 71-74). -/
inductive QueryVal where
  | qstr (s : String)
  | qjson (j : JVal)
deriving DecidableEq

/-- `ReplaceIntegrityLevelQueryTransformation.apply` on both input
forms: a dict is serialized with `json.dumps`, rewritten as text, and
parsed back with `json.loads` (`none` models a decoding error raised
there); a string is rewritten directly.  The boolean is the second
component of the returned `(query, True)` pair. -/
def applyQuery : Query → Option (QueryVal × Bool)
  | .qstr s => some (.qstr (applyILs s), true)
  | .qdict o => (loadsJ (applyIL (dumpsJ (.jo o)))).map fun j => (.qjson j, true)

/-- Claim C9: the rewriter's output type always matches its input type:
a string query is rewritten to a string, and a dict query is
serialized, rewritten and parsed back to a structured object of the
same form — the serialized text of a dict is never changed by the
rewrite (its quotes are all escaped or structural), so the returned
object is the input dict itself, and the returned flag is `True` in
both cases. -/
theorem c9_roundtrip_type_preserving :
    (∀ s, applyQuery (.qstr s) = some (.qstr (applyILs s), true)) ∧
    (∀ o, applyQuery (.qdict o) = some (.qjson (.jo o), true)) := by
  constructor
  · intro s
    rfl
  · intro o
    rw [applyQuery, applyILDumps (.jo o), loadsDumps (.jo o), Option.map_some']

/-- A run of `, ` separators, the `((, )*)` group of the multi-value
pattern. -/
inductive Seps : List Char → Prop where
  | nil : Seps []
  | cons (s : List Char) : Seps s → Seps (',' :: ' ' :: s)

/-- The body of a multi-value match after the `FIELD in (` literal: one
or more quoted level names (case-insensitive, so each quoted text maps
under `lowerC` to one of the five lowered level keys), each followed by
a separator run, terminated by the closing parenthesis.  Every quoted
value of a matched span is recognized by construction. -/
inductive MBody : List Char → Prop where
  | last (u seps lvl : List Char) :
      lvl ∈ levelKeysL → List.map lowerC u = lvl → Seps seps →
      MBody (('"' :: (u ++ ['"'])) ++ seps ++ [')'])
  | more (u seps rest lvl : List Char) :
      lvl ∈ levelKeysL → List.map lowerC u = lvl → Seps seps → MBody rest →
      MBody (('"' :: (u ++ ['"'])) ++ seps ++ rest)

/-- The separator scanner consumes a separator run (fuel-indexed). -/
theorem sepsTakeAux : ∀ (fuel : Nat) (s : List Char), s.length ≤ fuel →
    Seps (s.take (parseSeps s)) := by
  intro fuel
  induction fuel with
  | zero =>
    intro s hl
    rcases s with _ | ⟨c, s'⟩
    · exact Seps.nil
    · simp at hl
  | succ f ih =>
    intro s hl
    rw [parseSeps.eq_def]
    split
    · rename_i s'
      rw [show 2 + parseSeps s' = parseSeps s' + 1 + 1 by omega]
      rw [List.take_succ_cons, List.take_succ_cons]
      exact Seps.cons _ (ih s' (by simp at hl; omega))
    · rw [List.take_zero]
      exact Seps.nil

/-- The separator scanner consumes a separator run. -/
theorem sepsTake (s : List Char) : Seps (s.take (parseSeps s)) :=
  sepsTakeAux s.length s (le_refl _)

/-- Full characterization of a successful quoted-level parse: the input
starts with a quoted text that lowers to one of the five level keys,
and the consumed length is that key's length plus the two quotes. -/
theorem pqFull (v : List Char) (n : Nat) (h : parseQuoted v = some n) :
    ∃ u lvl rest2, lvl ∈ levelKeysL ∧ List.map lowerC u = lvl ∧
      v = '"' :: (u ++ '"' :: rest2) ∧ n = lvl.length + 2 := by
  match v with
  | [] => simp [parseQuoted] at h
  | c :: s =>
    rw [parseQuoted] at h
    split at h
    · rename_i hc
      subst hc
      rcases ho : levelKeysL.findSome? fun lvl =>
          if lvl = (s.take lvl.length).map lowerC then some lvl.length else none with _ | k
      · rw [ho] at h
        simp at h
      · rw [ho, Option.some_bind] at h
        obtain ⟨lvl, hmem, hf⟩ := List.exists_of_findSome?_eq_some ho
        split at hf
        · rename_i heq
          injection hf with hk
          split at h
          · rename_i hhead
            injection h with hn2
            rcases hdk : s.drop k with _ | ⟨ch, rest2⟩
            · rw [hdk] at hhead
              simp at hhead
            · rw [hdk, List.head?_cons] at hhead
              injection hhead with hch
              subst hch
              refine ⟨s.take k, lvl, rest2, hmem, ?_, ?_, by omega⟩
              · rw [hk] at heq
                exact heq.symm
              · have hs : s = s.take k ++ '"' :: rest2 := by
                  conv_lhs => rw [← List.take_append_drop k s]
                  rw [hdk]
                conv_lhs => rw [hs]
          · simp at h
        · simp at hf
    · simp at h

/-- A successful items parse consumes exactly a sequence of recognized
quoted levels with separator runs and the closing parenthesis. -/
theorem parseItemsBody : ∀ (fuel : Nat) (rest : List Char) (m : Nat),
    parseItemsF fuel rest = some m → MBody (rest.take m) := by
  intro fuel
  induction fuel with
  | zero =>
    intro rest m h
    simp [parseItemsF] at h
  | succ fuel ih =>
    intro rest m h
    rw [parseItemsF] at h
    rcases hq : parseQuoted rest with _ | n
    · rw [hq] at h
      simp at h
    · rw [hq] at h
      simp only at h
      obtain ⟨u, lvl, rest2, hmem, hu, hv, hn⟩ := pqFull rest n hq
      have hulen : u.length = lvl.length := by
        have hl := congrArg List.length hu
        rwa [List.length_map] at hl
      have hwrest : rest = ('"' :: (u ++ ['"'])) ++ rest2 := by
        rw [hv]
        simp
      have hnw : n = ('"' :: (u ++ ['"'])).length := by
        rw [List.length_cons, List.length_append, List.length_cons, List.length_nil]
        omega
      have hdropn : rest.drop n = rest2 := by
        rw [hwrest, hnw]
        exact List.drop_left _ _
      have htaken : rest.take n = '"' :: (u ++ ['"']) := by
        rw [hwrest, hnw]
        exact List.take_left _ _
      have hdrop2 : ∀ j : Nat, rest.drop (n + j) = rest2.drop j := by
        intro j
        rw [hwrest, hnw, ← List.drop_drop, List.drop_left]
      rw [hdropn] at h
      rw [hdrop2 (parseSeps rest2)] at h
      split at h
      · rename_i hhead
        injection h with hm
        subst hm
        rw [show n + parseSeps rest2 + 1 = n + (parseSeps rest2 + 1) by omega,
          List.take_add, htaken, hdropn, List.take_add]
        rcases hdk : rest2.drop (parseSeps rest2) with _ | ⟨ch, tail⟩
        · rw [hdk] at hhead
          simp at hhead
        · rw [hdk, List.head?_cons] at hhead
          injection hhead with hch
          subst hch
          rw [take1Cons, ← List.append_assoc]
          exact MBody.last u (rest2.take (parseSeps rest2)) lvl hmem hu (sepsTake rest2)
      · rcases hr : parseItemsF fuel (rest2.drop (parseSeps rest2)) with _ | m2
        · rw [hr] at h
          simp at h
        · rw [hr, Option.map_some'] at h
          injection h with hm
          subst hm
          rw [show n + parseSeps rest2 + m2 = n + (parseSeps rest2 + m2) by omega,
            List.take_add, htaken, hdropn, List.take_add, ← List.append_assoc]
          exact MBody.more u (rest2.take (parseSeps rest2)) _ lvl hmem hu
            (sepsTake rest2) (ih _ _ hr)

/-- The text returned by a successful multi-value search is the matched
prefix of some suffix of the query. -/
theorem multiSearchSpan (s t : List Char) (h : multiSearch s = some t) :
    ∃ s2 n, tryMatchAt s2 = some n ∧ t = s2.take n := by
  induction s with
  | nil => simp [multiSearch] at h
  | cons c s' ih =>
    rw [multiSearch] at h
    rcases hm : tryMatchAt (c :: s') with _ | n
    · rw [hm] at h
      exact ih h
    · rw [hm] at h
      injection h with h
      exact ⟨c :: s', n, hm, h.symm⟩

/-- A span matched by the multi-value pattern decomposes as the
case-insensitive `FIELD in (` literal followed by a body made up
exclusively of recognized quoted levels. -/
theorem tryMatchDecomp (s : List Char) (n : Nat) (h : tryMatchAt s = some n) :
    ∃ lit body, s.take n = lit ++ body ∧ List.map lowerC lit = mpLit ∧ MBody body := by
  rw [tryMatchAt] at h
  split at h
  · rename_i hci
    rcases hp : parseItems (s.drop mpLit.length) with _ | m
    · rw [hp] at h
      simp at h
    · rw [hp, Option.map_some'] at h
      injection h with hn
      refine ⟨s.take mpLit.length, (s.drop mpLit.length).take m, ?_, ?_, ?_⟩
      · rw [← hn, show m + mpLit.length = mpLit.length + m by omega, List.take_add]
      · rw [ciAt, beq_iff_eq] at hci
        exact hci.symm
      · rw [parseItems] at hp
        exact parseItemsBody _ _ _ hp
  · simp at h

/-- Claim C4, amended: the multi-value pattern only matches value lists
made up entirely of the five recognized literals — every span found by
the multi-value search decomposes as the case-insensitive literal
`action_process_integrity_level in (` followed by one or more quoted
level names with `, `-separator runs and the closing parenthesis, so a
list holding an unrecognized quoted value never forms a match; and on
the representative family `FIELD in ("LOW", "w")` — `w` any letter word
whose first letter is not u/l/m/h/s — neither pattern matches and the
whole rewriter returns the query unchanged: the recognized values are
not replaced and the unrecognized value is not dropped. -/
theorem c4_amended_matched_spans_recognized :
    (∀ s t, multiSearch s = some t →
      ∃ lit body, t = lit ++ body ∧ List.map lowerC lit = mpLit ∧ MBody body) ∧
    (∀ w, (∃ c₀ w', w = c₀ :: w' ∧ lowerC c₀ ∉ ['u', 'l', 'm', 'h', 's']) →
      (∀ c ∈ w, isAsciiLetter c = true) →
      applyIL (c4Query w) = c4Query w ∧ multiSearch (c4Query w) = none) := by
  constructor
  · intro s t h
    obtain ⟨s2, n, hm, rfl⟩ := multiSearchSpan s t h
    exact tryMatchDecomp s2 n hm
  · intro w hshape hlet
    exact c4_amended_partial_list_unmatched w hshape hlet

/-- Witness for the amended C4: the concrete fully-recognized query
`FIELD in ("LOW", "HIGH")` is matched in its entirety and decomposes as
required, and the concrete partly-recognized query with foreign value
"FOO" is left unchanged with no match. -/
theorem c4_amended_matched_spans_recognized_witness :
    (∃ lit body,
        "action_process_integrity_level in (\"LOW\", \"HIGH\")".toList = lit ++ body ∧
        List.map lowerC lit = mpLit ∧ MBody body) ∧
    ((applyIL (c4Query "FOO".toList) = c4Query "FOO".toList ∧
      multiSearch (c4Query "FOO".toList) = none)) :=
  ⟨c4_amended_matched_spans_recognized.1
      "action_process_integrity_level in (\"LOW\", \"HIGH\")".toList
      "action_process_integrity_level in (\"LOW\", \"HIGH\")".toList (by decide),
    c4_amended_matched_spans_recognized.2 "FOO".toList
      ⟨'F', "OO".toList, rfl, by decide⟩ (by decide)⟩
